import Mathlib

/-!
# Verification of the rustrict streaming censor

A shallow embedding of the streaming profanity censor in `src/lib.rs`
(`Censor::next`, `Censor::censor`, `Censor::analyze`,
`Censor::safe_self_censoring_and_spam_detection`), together with proofs of
the testable properties stated for it.

The input of the embedded engine is the *canonicalized* character stream:
the sequence of characters produced by the upstream
NFD -> (drop nonspacing marks and banned characters) -> NFC pipeline of
`Censor::buffers_from`.  All positions below are positions in that stream.
Unicode-table-driven primitives that live outside the crate
(`char::to_lowercase`, `is_punctuation`/`is_separator`/`is_other`, the
replacement table, `char::is_uppercase`) are parameters of the embedding,
collected in `Ctx`; a concrete `Ctx` instantiates them the way the real
tables do on the characters of a concrete test input.

`mtch.rs` (the `Match` record with `combine`/`commit`), `radix.rs` (the
trie) and `buffer_proxy_iterator.rs` are modules of this crate that are not
under `src/`; their definitions below are modelled from the spec and marked
as such in their doc comments.
-/

namespace Rustrict

/-- `usize::MAX`, the sentinel used by `Censor::new` for `last_pos` and by
match records for a not-yet-set `end`. -/
def USIZE_MAX : Nat := 2 ^ 64 - 1

/-- `u8::saturating_add` on the byte-valued counters of the censor. -/
def satAdd8 (a b : Nat) : Nat := min (a + b) 255

/-- `usize::saturating_add`. -/
def satAddUsize (a b : Nat) : Nat := min (a + b) USIZE_MAX

/-- Convert a guard to the `u8` 0/1 added to `spaces` (`as u8` on a bool). -/
def boolNat (b : Bool) : Nat := if b then 1 else 0

/-! ## The `Type` bitmask (lib.rs lines 126-162) -/

namespace Typ

def PROFANE   : Nat := 0b0000000000000000111
def OFFENSIVE : Nat := 0b0000000000000111000
def SEXUAL    : Nat := 0b0000000000111000000
def MEAN      : Nat := 0b0000000111000000000
def EVASIVE   : Nat := 0b0000111000000000000
def SPAM      : Nat := 0b0111000000000000000
def SAFE      : Nat := 0b1000000000000000000
def MILD      : Nat := 0b0111111111111111111
def MODERATE  : Nat := 0b0110110110110110110
def SEVERE    : Nat := 0b0100100100100100100
def INAPPROPRIATE : Nat := PROFANE ||| OFFENSIVE ||| SEXUAL ||| (MEAN &&& SEVERE)
def ANY : Nat := PROFANE ||| OFFENSIVE ||| SEXUAL ||| MEAN ||| EVASIVE ||| SPAM
def NONE : Nat := 0

/-- `Type::is` (lib.rs line 170): the mask meets the threshold. -/
def is (t threshold : Nat) : Bool := t &&& threshold != 0

/-- `Type::isnt` (lib.rs line 175). -/
def isnt (t threshold : Nat) : Bool := t &&& threshold == 0

/-- `Type::from_weights` (lib.rs lines 201-217): five integer weights, one
per category (profane, offensive, sexual, mean, evasive), each mapped to a
one-hot severity in its 3-bit field.  Weights are `i8` in the source; the
dataset only contains values 0..3, which we model as `Nat` (negative
weights would behave as weight 0, like every value below 1). -/
def from_weights (w0 w1 w2 w3 w4 : Nat) : Nat :=
  let sev : Nat → Nat := fun w =>
    if w ≥ 3 then 0b100 else if w == 2 then 0b010 else if w == 1 then 0b001 else 0
  sev w0 ||| (sev w1 <<< 3) ||| (sev w2 <<< 6) ||| (sev w3 <<< 9) ||| (sev w4 <<< 12)

end Typ

/-! ## The radix trie (radix.rs, not under src/) -/

/-- Modelled from the spec: the radix trie of `radix.rs` is not under
`src/`.  §3/§4.2: each node holds a child map, a terminal flag (`word` in
the source, see `next.word` at lib.rs line 695) and a `Type` meaningful at
terminals.  Nodes are identified by a `Nat` id so that the model's node
equality coincides with the reference equality of `&Node` used by the
match set. -/
structure Tree where
  children : Nat → Char → Option Nat
  word : Nat → Bool
  typ : Nat → Nat
  root : Nat

/-! ## The match record (mtch.rs, not under src/) -/

/-- The `Match` record (modelled from the spec §3; `mtch.rs` is not under
`src/`): an in-flight or pending candidate.  Field names follow the struct
literal at lib.rs lines 626-634 (`end` is a Lean keyword, hence `end_`). -/
structure Match where
  node : Nat
  start : Nat
  end_ : Nat
  last : Char
  space_before : Bool
  space_after : Bool
  spaces : Nat
deriving DecidableEq, Repr

/-- Modelled from the spec: the identity key of the match set (§3): equality
and hashing use `(node, start, last, spaces, space_before)`, not `end` or
`space_after`. -/
def Match.keyEq (a b : Match) : Bool :=
  a.node == b.node && a.start == b.start && a.last == b.last &&
    a.spaces == b.spaces && a.space_before == b.space_before

/-- Modelled from the spec: `Match::combine` (mtch.rs, not under `src/`),
§4.4: the merge of two records with equal identity key keeps the smaller
`spaces`, the disjunction of `space_before`/`space_after`, and the
later-set `end`. -/
def Match.combine (a b : Match) : Match :=
  { a with
    spaces := min a.spaces b.spaces,
    space_before := a.space_before || b.space_before,
    space_after := a.space_after || b.space_after,
    end_ := if b.end_ == USIZE_MAX then a.end_ else b.end_ }

/-- Insertion with merge-on-collision, as performed on `self.matches_` at
lib.rs lines 677-682 and 720-725 (`get` + `combine` + `replace`, else
`insert`). -/
def insertCombine (ms : List Match) (m : Match) : List Match :=
  if ms.any (fun x => Match.keyEq x m) then
    ms.map (fun x => if Match.keyEq x m then Match.combine x m else x)
  else ms ++ [m]

/-- One 3-bit severity field of `t`, right-shifted by `sp`, back in place. -/
def laneScaled (t sp i : Nat) : Nat := (((t >>> (3 * i)) &&& 7) >>> sp) <<< (3 * i)

/-- Modelled from the spec: the severity scaling applied by `Match::commit`
(mtch.rs, not under `src/`), §4.4: each inserted gap reduces severity by
one level per gap in every category field (severe -> moderate -> mild ->
nothing); the SAFE bit is not a severity and is unaffected. -/
def scaleBySpaces (t sp : Nat) : Nat :=
  (t &&& Typ.SAFE) ||| laneScaled t sp 0 ||| laneScaled t sp 1 ||| laneScaled t sp 2 |||
    laneScaled t sp 3 ||| laneScaled t sp 4 ||| laneScaled t sp 5

/-- Overwrite positions `s..e` (inclusive) of the buffer with `repl`,
skipping position `s` itself when `skipFirst` is set; `i` is the position
of the head of the remaining list. -/
def overwriteFrom (repl : Char) (s e : Nat) (skipFirst : Bool) : Nat → List Char → List Char
  | _, [] => []
  | i, c :: rest =>
    (if s ≤ i && i ≤ e && !(skipFirst && i == s) then repl else c) ::
      overwriteFrom repl s e skipFirst (i + 1) rest

/-! ## Configuration and engine state -/

/-- The configurable options of `Censor` (lib.rs lines 82-88). -/
structure Config where
  ignore_false_positives : Bool
  ignore_self_censoring : Bool
  censor_first_character_threshold : Nat
  censor_replacement : Char
  censor_threshold : Nat

/-- The defaults set by `Censor::new` (lib.rs lines 320-326). -/
def Config.default : Config :=
  { ignore_false_positives := false,
    ignore_self_censoring := false,
    censor_first_character_threshold := Typ.OFFENSIVE &&& Typ.SEVERE,
    censor_replacement := '*',
    censor_threshold := Typ.INAPPROPRIATE }

/-- The external collaborators of the engine: the trie (built from data
files outside `src/`) and the Unicode-table primitives used by
`Censor::next` (`char::to_lowercase`, the `skippable` classification at
lib.rs line 588, the `REPLACEMENTS` table, `char::is_uppercase`). -/
structure Ctx where
  tree : Tree
  lowercase : Char → List Char
  skippable : Char → Bool
  replacements : Char → Option (List Char)
  isUpper : Char → Bool

/-- The mutable state of a censor pass (lib.rs lines 81-124).  The buffer
of `BufferProxyIterator` (not under `src/`) is modelled from the spec §4.3
as the canonical character list `buf` (mutable contents) together with the
consume cursor `consumed` and the spy cursor `spied`; `emitted` is the
output produced so far.  `safeEvents` is a ghost log recording exactly the
matches for which lib.rs line 702 set the `safe` flag. -/
structure EngState where
  matches_ : List Match
  separate : Bool
  last_pos : Nat
  typ : Nat
  uppercase : Nat
  repetitions : Nat
  gibberish : Nat
  replacements : Nat
  self_censoring : Nat
  last : Option Char
  safe : Bool
  pending_commit : List Match
  buf : List Char
  consumed : Nat
  spied : Nat
  emitted : List Char
  safeEvents : List Match
deriving Repr

/-- The initial state built by `Censor::new` (lib.rs lines 316-347) over a
canonical character stream `cs`. -/
def initState (cs : List Char) : EngState :=
  { matches_ := [], separate := true, last_pos := USIZE_MAX, typ := Typ.NONE,
    uppercase := 0, repetitions := 0, gibberish := 0, replacements := 0,
    self_censoring := 0, last := none, safe := false, pending_commit := [],
    buf := cs, consumed := 0, spied := 0, emitted := [], safeEvents := [] }

/-- Modelled from the spec: `BufferProxyIterator::index()`
(buffer_proxy_iterator.rs, not under `src/`): the position of the last
consumed canonical character, `None` while nothing was consumed (this is
what the assertion in `Censor::censor`, lib.rs line 483, tests). -/
def bufferIndex (s : EngState) : Option Nat :=
  if s.consumed == 0 then none else some (s.consumed - 1)

/-- Modelled from the spec: `spy_next_index()` (§4.3): the canonical
position the spy would read next, `None` if caught up to consume. -/
def spyNextIndex (s : EngState) : Option Nat :=
  if s.spied < s.consumed then some s.spied else none

/-! ## Character classes used by the counters (lib.rs lines 598-619) -/

def isAsciiLowercase (c : Char) : Bool := 'a' ≤ c && c ≤ 'z'
def isAsciiUppercase (c : Char) : Bool := 'A' ≤ c && c ≤ 'Z'
def isAsciiDigit (c : Char) : Bool := '0' ≤ c && c ≤ '9'

/-- Characters on the home-row of a QWERTY keyboard (lib.rs line 612). -/
def isGibberish (c : Char) : Bool :=
  c == 'a' || c == 's' || c == 'd' || c == 'f' || c == 'j' || c == 'k' ||
    c == 'l' || c == ';'

/-! ## One `raw_c` step of `Censor::next` (lib.rs lines 572-785)

The step is split into named stages following the source order exactly;
`stepRaw` is their composition. -/

/-- Stage of lib.rs lines 581-584: the liveness reset of the sticky `safe`
flag.  `synthetic` is true exactly when `raw_c` is the appended trailing
space, i.e. when `space_appended` was just set. -/
def safeResetStage (s : EngState) (raw_c : Char) (synthetic : Bool) : EngState :=
  if !synthetic && raw_c != '!' && raw_c != '.' && raw_c != '?' then
    { s with safe := false }
  else s

/-- Stage of lib.rs lines 591-621: the self-censoring, repetition,
replacement and gibberish counters, and the update of `last`. -/
def counterStage (cfg : Config) (s : EngState) (raw_c : Char)
    (replacement : Option (List Char)) : EngState :=
  let sc :=
    if (!s.separate || s.last == some cfg.censor_replacement) &&
        raw_c == cfg.censor_replacement then
      satAdd8 s.self_censoring 1
    else s.self_censoring
  let rp :=
    match s.last with
    | some l => if raw_c == l then satAdd8 s.repetitions 1 else s.repetitions
    | none => s.repetitions
  let rep :=
    match s.last with
    | some l =>
      if replacement.isSome && !isAsciiLowercase raw_c &&
          !(isAsciiDigit raw_c && isAsciiDigit l) then
        satAdd8 s.replacements 1
      else s.replacements
    | none => s.replacements
  let g :=
    match s.last with
    | some l =>
      if isGibberish raw_c && isGibberish l then satAdd8 s.gibberish 1 else s.gibberish
    | none => s.gibberish
  { s with self_censoring := sc, repetitions := rp, replacements := rep,
           gibberish := g, last := some raw_c }

/-- The fresh match inserted by the seeding of lib.rs lines 626-634. -/
def seedMatch (rootId : Nat) (separate : Bool) (p : Nat) : Match :=
  { node := rootId, start := p, end_ := USIZE_MAX, last := Char.ofNat 0,
    space_before := separate, space_after := false, spaces := 0 }

/-- Stage of lib.rs lines 623-636: seed a new match for every character
read, unless the character is skippable without a replacement. -/
def seedStage (ctx : Ctx) (s : EngState) (skippable : Bool)
    (replacement : Option (List Char)) : EngState :=
  match bufferIndex s with
  | some p =>
    if !(skippable && replacement.isNone) then
      { s with matches_ := insertCombine s.matches_ (seedMatch ctx.tree.root s.separate p) }
    else s
  | none => s

/-- Stage of lib.rs lines 646-654: update `separate` and mark
`space_after` on pending matches ending at the previous position. -/
def sepStage (s : EngState) (skippable : Bool) : EngState :=
  let s := { s with separate := skippable }
  if s.separate then
    { s with pending_commit :=
        (s.pending_commit.map fun p =>
          if p.end_ == s.last_pos then { p with space_after := true } else p) }
  else s

/-- The accumulator of the advance loop: the state plus the two loop-local
variables of lib.rs lines 656-657. -/
structure AdvAcc where
  s : EngState
  drain_start : Option Nat
  safety_end : Nat

/-- The body of the inner advance loop (lib.rs lines 664-727), processing
one existing match `m` of `matches_tmp` against one character `c` of the
replacement-expanded current character. -/
def advanceMatch (ctx : Ctx) (cfg : Config) (raw_c : Char) (skippable : Bool)
    (pos : Option Nat) (c : Char) (acc : AdvAcc) (m : Match) : AdvAcc :=
  let safety_end := min acc.safety_end m.start
  let s := acc.s
  -- Tolerance / undo-remove step (lib.rs lines 669-683).
  let undo_m : Match :=
    { m with spaces :=
        (satAdd8 m.spaces
          (boolNat ((c == ' ' || c != raw_c) && s.separate && c != '\''))) }
  let ms1 :=
    if (skippable || c == m.last) && m.start != pos.getD 0 then
      insertCombine s.matches_ undo_m
    else s.matches_
  -- Descent (lib.rs lines 685-726).
  match ctx.tree.children m.node c with
  | none =>
    { s := { s with matches_ := ms1 }, drain_start := acc.drain_start,
      safety_end := safety_end }
  | some next =>
    let next_m : Match :=
      { m with node := next,
               spaces := satAdd8 m.spaces
                 (boolNat (c != raw_c && s.separate && c != '\'')),
               last := c }
    let isWord := ctx.tree.word next
    let safeHit := isWord && Typ.is (ctx.tree.typ next) Typ.SAFE && next_m.start == 0 &&
      next_m.spaces == 0 && !cfg.ignore_false_positives
    let isAny := isWord && Typ.is (ctx.tree.typ next) Typ.ANY
    let isAnchor := isWord && !Typ.is (ctx.tree.typ next) Typ.ANY &&
      next_m.spaces == 0 && !cfg.ignore_false_positives
    { s := { s with
        matches_ := insertCombine ms1 next_m,
        safe := if safeHit then true else s.safe,
        safeEvents := if safeHit then next_m :: s.safeEvents else s.safeEvents,
        pending_commit :=
          if isAny then
            -- lib.rs line 707: `end: pos.unwrap()`; `pos` is `Some` whenever
            -- a match exists, since matches are only seeded at a consumed
            -- position.
            s.pending_commit ++ [{ next_m with end_ := pos.getD 0 }]
          else s.pending_commit },
      drain_start :=
        if isAnchor then some (min (acc.drain_start.getD next_m.start) next_m.start)
        else acc.drain_start,
      safety_end := safety_end }

/-- The advance loop (lib.rs lines 659-729): for each character `c` of the
replacement string (or the single `raw_c`), iterate over the frozen
`matches_tmp`; insertions go to the fresh `matches`. -/
def advanceStage (ctx : Ctx) (cfg : Config) (s : EngState) (raw_c : Char)
    (skippable : Bool) (replacement : Option (List Char)) (pos : Option Nat) : AdvAcc :=
  let tmp := s.matches_
  let s := { s with matches_ := [] }
  (replacement.getD [raw_c]).foldl
    (fun acc c => tmp.foldl (advanceMatch ctx cfg raw_c skippable pos c) acc)
    { s := s, drain_start := none, safety_end := USIZE_MAX }

/-- Modelled from the spec: `Match::commit` (mtch.rs, not under `src/`),
§4.4/§4.13: record the (gap-scaled) type into the running analysis and, if
it meets the censor threshold, overwrite the buffer across
`[start, end]` with the replacement character, preserving the first
character unless the type also meets the first-character threshold. -/
def commitMatch (ctx : Ctx) (cfg : Config) (m : Match) (typ : Nat) (buf : List Char) :
    Nat × List Char :=
  let scaled := scaleBySpaces (ctx.tree.typ m.node) m.spaces
  let typ' := typ ||| scaled
  if Typ.is scaled cfg.censor_threshold then
    (typ', overwriteFrom cfg.censor_replacement m.start m.end_
      (!Typ.is scaled cfg.censor_first_character_threshold) 0 buf)
  else (typ', buf)

/-- The body of `pending_commit.retain` (lib.rs lines 740-763): cancel
records at or after `drain_start`, pre-commit records whose `end` is below
`safety_end`, keep the rest (in order). -/
def retainStep (ctx : Ctx) (cfg : Config) (drain_start : Option Nat) (safety_end : Nat)
    (acc : Nat × List Char × List Match) (p : Match) : Nat × List Char × List Match :=
  if (match drain_start with | some ds => decide (p.start ≥ ds) | none => false) then acc
  else if p.end_ < safety_end then
    let tb := commitMatch ctx cfg p acc.1 acc.2.1
    (tb.1, tb.2, acc.2.2)
  else (acc.1, acc.2.1, acc.2.2 ++ [p])

/-- Stage of lib.rs lines 740-763. -/
def retainStage (ctx : Ctx) (cfg : Config) (s : EngState) (drain_start : Option Nat)
    (safety_end : Nat) : EngState :=
  let r := s.pending_commit.foldl (retainStep ctx cfg drain_start safety_end)
    (s.typ, s.buf, [])
  { s with typ := r.1, buf := r.2.1, pending_commit := r.2.2 }

/-- Stage of lib.rs lines 766-784: yield one character if the spy position
is strictly below the safety bound and strictly below every pending
commit's start; count emitted ASCII uppercase characters. -/
def emitStage (s : EngState) (safety_end : Nat) : EngState :=
  match spyNextIndex s with
  | none => s
  | some i =>
    let safe_until := decide (i < safety_end) &&
      s.pending_commit.all (fun p => !(p.start ≤ i))
    if safe_until then
      let c := s.buf.getD i ' '
      let s := if isAsciiUppercase c then { s with uppercase := satAdd8 s.uppercase 1 } else s
      { s with spied := i + 1, emitted := s.emitted ++ [c] }
    else s

/-- One full iteration of the `while let Some(raw_c)` loop of
`Censor::next` (lib.rs lines 572-785) on one (already lowercased)
character. -/
def stepRaw (ctx : Ctx) (cfg : Config) (s : EngState) (raw_c : Char)
    (synthetic : Bool) : EngState :=
  let s := safeResetStage s raw_c synthetic
  let pos := bufferIndex s
  let skippable := ctx.skippable raw_c
  let replacement := ctx.replacements raw_c
  let s := counterStage cfg s raw_c replacement
  let s := seedStage ctx s skippable replacement
  let s := sepStage s skippable
  let acc := advanceStage ctx cfg s raw_c skippable replacement pos
  let s := match pos with
    | some p => { acc.s with last_pos := p }
    | none => acc.s
  let s := retainStage ctx cfg s acc.drain_start acc.safety_end
  emitStage s acc.safety_end

/-- Processing of one canonical character: the `FlatMap` of
`Censor::buffers_from` (lib.rs lines 349-379) consumes the character from
the buffer (recording its position) and feeds each character of its
lowercase expansion to the loop body. -/
def processCanonical (ctx : Ctx) (cfg : Config) (s : EngState) (ci : Char × Nat) :
    EngState :=
  let s := { s with consumed := ci.2 + 1 }
  (ctx.lowercase ci.1).foldl (fun s lc => stepRaw ctx cfg s lc false) s

/-- Pair each canonical character with its position. -/
def withIdx : List Char → Nat → List (Char × Nat)
  | [], _ => []
  | c :: rest, i => (c, i) :: withIdx rest (i + 1)

/-- One iteration of the final spy drain (lib.rs lines 797-802): emit the
next buffered character, counting (Unicode) uppercase characters. -/
def drainStep (ctx : Ctx) (s : EngState) (c : Char) : EngState :=
  let u := if ctx.isUpper c then satAdd8 s.uppercase 1 else s.uppercase
  { s with uppercase := u, spied := s.spied + 1, emitted := s.emitted ++ [c] }

/-- The epilogue of `Censor::next` after input exhaustion (lib.rs lines
787-806): commit every remaining pending record in order, then drain the
spy buffer to emission. -/
def finishRun (ctx : Ctx) (cfg : Config) (s : EngState) : EngState :=
  let tb := s.pending_commit.foldl
    (fun (tb : Nat × List Char) p => commitMatch ctx cfg p tb.1 tb.2) (s.typ, s.buf)
  let s := { s with typ := tb.1, buf := tb.2, pending_commit := [] }
  let rest := (s.buf.take s.consumed).drop s.spied
  rest.foldl (drainStep ctx) s

/-- A complete censor pass over the canonical stream `cs`: every canonical
character (through its lowercase expansion), then the one synthetic
trailing space (lib.rs lines 573-580), then the epilogue. -/
def runAll (ctx : Ctx) (cfg : Config) (cs : List Char) : EngState :=
  let s := (withIdx cs 0).foldl (processCanonical ctx cfg) (initState cs)
  let s := stepRaw ctx cfg s ' ' true
  finishRun ctx cfg s

/-- The censored output of a full pass (what `Censor::censor` collects). -/
def censorRun (ctx : Ctx) (cfg : Config) (cs : List Char) : List Char :=
  (runAll ctx cfg cs).emitted

/-- `Censor::safe_self_censoring_and_spam_detection` (lib.rs lines
523-565).  The counters are `u8` (at most 255 by construction) and
`last_pos` is `usize`; with those bounds the `u16` arithmetic of the source
never wraps (`100 * spam ≤ 25500 < 65536`), so plain `Nat` arithmetic
coincides with it. -/
def scorer (cfg : Config) (s : EngState) : Nat :=
  let safe := if s.safe then Typ.SAFE else Typ.NONE
  if s.last_pos < 6 then safe
  else
    let total := min (satAddUsize s.last_pos 6) 65535
    let spam := max (max s.uppercase s.repetitions) (max (s.gibberish / 2) s.replacements)
    let percent_spam := 100 * spam / total
    let percent_self_censoring := 100 * s.self_censoring / total
    let spamT :=
      if percent_spam ≥ 70 && s.last_pos ≥ 20 then Typ.SPAM &&& Typ.SEVERE
      else if percent_spam ≥ 50 && s.last_pos ≥ 10 then Typ.SPAM &&& Typ.MODERATE
      else if percent_spam ≥ 30 then Typ.SPAM &&& Typ.MILD
      else Typ.NONE
    let selfT :=
      if !cfg.ignore_self_censoring && percent_self_censoring > 20 then
        Typ.PROFANE &&& Typ.MILD
      else Typ.NONE
    safe ||| spamT ||| selfT

/-- `Censor::analysis` (lib.rs line 513) after a full pass:
`analyze() = typ | safe_self_censoring_and_spam_detection()`. -/
def analyzeRun (ctx : Ctx) (cfg : Config) (cs : List Char) : Nat :=
  let s := runAll ctx cfg cs
  s.typ ||| scorer cfg s

/-! ## The public `Censor` object (lib.rs lines 481-521) -/

/-- A `Censor` instance: the construction context, options, the canonical
input stream, and the current engine state. -/
structure CensorInst where
  ctx : Ctx
  cfg : Config
  input : List Char
  st : EngState

/-- `Censor::new` (lib.rs lines 316-347) over a canonical stream. -/
def Censor.new (ctx : Ctx) (cfg : Config) (cs : List Char) : CensorInst :=
  ⟨ctx, cfg, cs, initState cs⟩

/-- `Censor::censor` (lib.rs lines 481-494): asserts that no character was
consumed yet (`!self.buffer.index().is_some()`), then fully consumes the
input, returning the censored characters.  The assertion failure is
modelled as `Except.error`. -/
def Censor.censorMethod (inst : CensorInst) : Except String (List Char × CensorInst) :=
  if (bufferIndex inst.st).isSome then
    Except.error "censor must be called before any other form of processing"
  else
    let s := runAll inst.ctx inst.cfg inst.input
    Except.ok (s.emitted, { inst with st := s })

/-- `Censor::analyze` (lib.rs lines 499-502): fully consume
(`ensure_done`), then convert the accumulated state to a `Type`. -/
def Censor.analyzeMethod (inst : CensorInst) : Nat × CensorInst :=
  let s := runAll inst.ctx inst.cfg inst.input
  (s.typ ||| scorer inst.cfg s, { inst with st := s })

end Rustrict

namespace Rustrict

/-! ## Basic lemmas -/

theorem satAdd8_le (a b : Nat) : satAdd8 a b ≤ 255 := by
  simp [satAdd8]

theorem getD_concat_lt {α : Type} (l : List α) (a d : α) (i : Nat) (h : i < l.length) :
    (l ++ [a]).getD i d = l.getD i d := by
  induction l generalizing i with
  | nil => simp at h
  | cons x xs ih =>
    cases i with
    | zero => rfl
    | succ j =>
      simp only [List.cons_append, List.getD_cons_succ]
      exact ih j (by simpa using h)

theorem getD_concat_eq {α : Type} (l : List α) (a d : α) :
    (l ++ [a]).getD l.length d = a := by
  induction l with
  | nil => rfl
  | cons x xs ih =>
    simp only [List.cons_append, List.length_cons, List.getD_cons_succ]
    exact ih

theorem getD_len_le {α : Type} (l : List α) (d : α) (i : Nat) (h : l.length ≤ i) :
    l.getD i d = d := by
  induction l generalizing i with
  | nil => cases i <;> rfl
  | cons x xs ih =>
    cases i with
    | zero => simp at h
    | succ j =>
      simp only [List.getD_cons_succ]
      exact ih j (by simpa using h)

theorem getD_indep {α : Type} (l : List α) (d d' : α) (i : Nat) (h : i < l.length) :
    l.getD i d = l.getD i d' := by
  induction l generalizing i with
  | nil => simp at h
  | cons x xs ih =>
    cases i with
    | zero => rfl
    | succ j =>
      simp only [List.getD_cons_succ]
      exact ih j (by simpa using h)

theorem overwriteFrom_length (repl : Char) (s e : Nat) (sf : Bool) (i : Nat)
    (l : List Char) : (overwriteFrom repl s e sf i l).length = l.length := by
  induction l generalizing i with
  | nil => rfl
  | cons c rest ih => simp [overwriteFrom, ih]

theorem overwriteFrom_getD (repl : Char) (s e : Nat) (sf : Bool) (i j : Nat)
    (l : List Char) (d : Char) :
    (overwriteFrom repl s e sf i l).getD j d = l.getD j d ∨
      (overwriteFrom repl s e sf i l).getD j d = repl := by
  induction l generalizing i j with
  | nil => left; rfl
  | cons c rest ih =>
    cases j with
    | zero =>
      simp only [overwriteFrom, List.getD_cons_zero]
      split
      · right; rfl
      · left; rfl
    | succ k =>
      simp only [overwriteFrom, List.getD_cons_succ]
      exact ih (i + 1) k

/-- Pointwise approximation of the original canonical stream: the buffer
(and likewise the emitted output) differs from `cs` only by replacement
characters. -/
def BufApprox (cs : List Char) (repl : Char) (b : List Char) : Prop :=
  b.length = cs.length ∧ ∀ j d, b.getD j d = cs.getD j d ∨ b.getD j d = repl

theorem BufApprox.refl (cs : List Char) (repl : Char) : BufApprox cs repl cs :=
  ⟨rfl, fun _ _ => Or.inl rfl⟩

theorem BufApprox.overwrite {cs : List Char} {repl : Char} {b : List Char}
    (h : BufApprox cs repl b) (s e : Nat) (sf : Bool) :
    BufApprox cs repl (overwriteFrom repl s e sf 0 b) := by
  refine ⟨(overwriteFrom_length _ _ _ _ _ _).trans h.1, fun j d => ?_⟩
  rcases overwriteFrom_getD repl s e sf 0 j b d with h' | h'
  · rw [h']; exact h.2 j d
  · right; exact h'

theorem commitMatch_buf_pointwise (ctx : Ctx) (cfg : Config) (m : Match) (t : Nat)
    (b : List Char) (j : Nat) (d : Char) :
    (commitMatch ctx cfg m t b).2.getD j d = b.getD j d ∨
    (commitMatch ctx cfg m t b).2.getD j d = cfg.censor_replacement := by
  unfold commitMatch
  dsimp only
  split
  · exact overwriteFrom_getD _ _ _ _ 0 j b d
  · exact Or.inl rfl

theorem commitMatch_typ (ctx : Ctx) (cfg : Config) (m : Match) (t : Nat)
    (b : List Char) :
    (commitMatch ctx cfg m t b).1 = t ||| scaleBySpaces (ctx.tree.typ m.node) m.spaces := by
  unfold commitMatch
  dsimp only
  split <;> rfl

theorem commitMatch_buf (ctx : Ctx) (cfg : Config) (m : Match) (t : Nat)
    {cs : List Char} {b : List Char} (h : BufApprox cs cfg.censor_replacement b) :
    BufApprox cs cfg.censor_replacement (commitMatch ctx cfg m t b).2 := by
  unfold commitMatch
  dsimp only
  split
  · exact h.overwrite _ _ _
  · exact h

end Rustrict

namespace Rustrict

/-! ## Stage characterizations

One lemma per stage of `stepRaw`, describing which state fields the stage
can modify; everything downstream reasons through these. -/

theorem safeResetStage_cases (s : EngState) (c : Char) (syn : Bool) :
    safeResetStage s c syn = s ∨ safeResetStage s c syn = { s with safe := false } := by
  unfold safeResetStage
  split
  · right; rfl
  · left; rfl

theorem counterStage_spec (cfg : Config) (s : EngState) (c : Char)
    (repl : Option (List Char)) :
    ∃ sc rp rep g,
      counterStage cfg s c repl =
        { s with self_censoring := sc, repetitions := rp, replacements := rep,
                 gibberish := g, last := some c } ∧
      (sc = s.self_censoring ∨ sc ≤ 255) ∧ (rp = s.repetitions ∨ rp ≤ 255) ∧
      (rep = s.replacements ∨ rep ≤ 255) ∧ (g = s.gibberish ∨ g ≤ 255) := by
  unfold counterStage
  refine ⟨_, _, _, _, rfl, ?_, ?_, ?_, ?_⟩ <;>
    cases s.last <;>
      first
      | exact Or.inl rfl
      | (try dsimp only
         split_ifs <;>
           first
           | exact Or.inl rfl
           | exact Or.inr (satAdd8_le _ _))

theorem seedStage_cases (ctx : Ctx) (s : EngState) (sk : Bool)
    (repl : Option (List Char)) :
    seedStage ctx s sk repl = s ∨
      ∃ p, bufferIndex s = some p ∧ (sk && repl.isNone) = false ∧
        seedStage ctx s sk repl =
          { s with matches_ := insertCombine s.matches_ (seedMatch ctx.tree.root s.separate p) } := by
  unfold seedStage
  cases h : bufferIndex s with
  | none => left; rfl
  | some p =>
    by_cases hg : (sk && repl.isNone) = true
    · left; simp [hg]
    · right
      simp only [Bool.not_eq_true] at hg
      refine ⟨p, rfl, hg, ?_⟩
      simp [hg]

theorem sepStage_spec (s : EngState) (sk : Bool) :
    ∃ pend, sepStage s sk = { s with separate := sk, pending_commit := pend } := by
  unfold sepStage
  dsimp only
  split
  · exact ⟨_, rfl⟩
  · exact ⟨_, rfl⟩

end Rustrict

namespace Rustrict

/-- The fields of the engine state that the advance loop of lib.rs lines
659-729 never modifies (it only touches the match set, the pending list,
`safe` and the ghost event log). -/
def Frame (a b : EngState) : Prop :=
  b.buf = a.buf ∧ b.spied = a.spied ∧ b.emitted = a.emitted ∧ b.consumed = a.consumed ∧
    b.typ = a.typ ∧ b.uppercase = a.uppercase ∧ b.repetitions = a.repetitions ∧
    b.gibberish = a.gibberish ∧ b.replacements = a.replacements ∧
    b.self_censoring = a.self_censoring ∧ b.last = a.last ∧ b.last_pos = a.last_pos ∧
    b.separate = a.separate

theorem Frame.frameRefl (a : EngState) : Frame a a :=
  ⟨rfl, rfl, rfl, rfl, rfl, rfl, rfl, rfl, rfl, rfl, rfl, rfl, rfl⟩

theorem Frame.trans {a b c : EngState} (h1 : Frame a b) (h2 : Frame b c) : Frame a c := by
  obtain ⟨e1, e2, e3, e4, e5, e6, e7, e8, e9, e10, e11, e12, e13⟩ := h1
  obtain ⟨f1, f2, f3, f4, f5, f6, f7, f8, f9, f10, f11, f12, f13⟩ := h2
  exact ⟨f1.trans e1, f2.trans e2, f3.trans e3, f4.trans e4, f5.trans e5, f6.trans e6,
    f7.trans e7, f8.trans e8, f9.trans e9, f10.trans e10, f11.trans e11, f12.trans e12,
    f13.trans e13⟩

theorem advanceMatch_frame (ctx : Ctx) (cfg : Config) (raw_c : Char) (sk : Bool)
    (pos : Option Nat) (c : Char) (acc : AdvAcc) (m : Match) :
    Frame acc.s (advanceMatch ctx cfg raw_c sk pos c acc m).s := by
  unfold advanceMatch
  cases ctx.tree.children m.node c <;>
    exact ⟨rfl, rfl, rfl, rfl, rfl, rfl, rfl, rfl, rfl, rfl, rfl, rfl, rfl⟩

theorem advanceFoldInner_frame (ctx : Ctx) (cfg : Config) (raw_c : Char) (sk : Bool)
    (pos : Option Nat) (c : Char) (ms : List Match) (acc : AdvAcc) :
    Frame acc.s (ms.foldl (advanceMatch ctx cfg raw_c sk pos c) acc).s := by
  induction ms generalizing acc with
  | nil => exact Frame.frameRefl _
  | cons m rest ih =>
    exact Frame.trans (advanceMatch_frame ctx cfg raw_c sk pos c acc m) (ih _)

theorem advanceFoldOuter_frame (ctx : Ctx) (cfg : Config) (raw_c : Char) (sk : Bool)
    (pos : Option Nat) (tmp : List Match) (cs' : List Char) (acc : AdvAcc) :
    Frame acc.s
      (cs'.foldl (fun acc c => tmp.foldl (advanceMatch ctx cfg raw_c sk pos c) acc) acc).s := by
  induction cs' generalizing acc with
  | nil => exact Frame.frameRefl _
  | cons c rest ih =>
    exact Frame.trans (advanceFoldInner_frame ctx cfg raw_c sk pos c tmp acc) (ih _)

theorem advanceStage_frame (ctx : Ctx) (cfg : Config) (s : EngState) (raw_c : Char)
    (sk : Bool) (repl : Option (List Char)) (pos : Option Nat) :
    Frame s (advanceStage ctx cfg s raw_c sk repl pos).s := by
  unfold advanceStage
  exact advanceFoldOuter_frame ctx cfg raw_c sk pos s.matches_ (repl.getD [raw_c])
    { s := { s with matches_ := [] }, drain_start := none, safety_end := USIZE_MAX }

end Rustrict

namespace Rustrict

/-! ## Retain / emit stage characterizations -/

theorem retainFold_buf (ctx : Ctx) (cfg : Config) (ds : Option Nat) (se : Nat)
    (ps : List Match) (acc : Nat × List Char × List Match) {cs : List Char}
    (h : BufApprox cs cfg.censor_replacement acc.2.1) :
    BufApprox cs cfg.censor_replacement
      ((ps.foldl (retainStep ctx cfg ds se) acc)).2.1 := by
  induction ps generalizing acc with
  | nil => exact h
  | cons p rest ih =>
    rw [List.foldl_cons]
    apply ih
    unfold retainStep
    split
    · exact h
    · split
      · exact commitMatch_buf ctx cfg p acc.1 h
      · exact h

theorem retainFold_buf_pointwise (ctx : Ctx) (cfg : Config) (ds : Option Nat)
    (se : Nat) (ps : List Match) (acc : Nat × List Char × List Match) (j : Nat)
    (d : Char) :
    (ps.foldl (retainStep ctx cfg ds se) acc).2.1.getD j d = acc.2.1.getD j d ∨
    (ps.foldl (retainStep ctx cfg ds se) acc).2.1.getD j d = cfg.censor_replacement := by
  induction ps generalizing acc with
  | nil => exact Or.inl rfl
  | cons p rest ih =>
    rw [List.foldl_cons]
    rcases ih (retainStep ctx cfg ds se acc p) with hr | hr
    · rw [hr]
      unfold retainStep
      split
      · exact Or.inl rfl
      · split
        · exact commitMatch_buf_pointwise ctx cfg p acc.1 acc.2.1 j d
        · exact Or.inl rfl
    · exact Or.inr hr

theorem retainStage_spec (ctx : Ctx) (cfg : Config) (s : EngState) (ds : Option Nat)
    (se : Nat) :
    ∃ t b pend,
      retainStage ctx cfg s ds se = { s with typ := t, buf := b, pending_commit := pend } ∧
      (∀ cs, BufApprox cs cfg.censor_replacement s.buf →
        BufApprox cs cfg.censor_replacement b) ∧
      ∀ j d, b.getD j d = s.buf.getD j d ∨ b.getD j d = cfg.censor_replacement := by
  unfold retainStage
  exact ⟨_, _, _, rfl, fun cs h => retainFold_buf ctx cfg ds se s.pending_commit _ h,
    fun j d => retainFold_buf_pointwise ctx cfg ds se s.pending_commit _ j d⟩

theorem emitStage_cases (s : EngState) (se : Nat) :
    emitStage s se = s ∨
      (s.spied < s.consumed ∧ ∃ u,
        emitStage s se =
          { s with uppercase := u, spied := s.spied + 1,
                   emitted := s.emitted ++ [s.buf.getD s.spied ' '] } ∧
        (u = s.uppercase ∨ u ≤ 255)) := by
  unfold emitStage spyNextIndex
  by_cases h : s.spied < s.consumed
  · simp only [if_pos h]
    split
    · split
      · exact Or.inr ⟨h, _, rfl, Or.inr (satAdd8_le _ _)⟩
      · exact Or.inr ⟨h, _, rfl, Or.inl rfl⟩
    · exact Or.inl rfl
  · rw [if_neg h]
    exact Or.inl rfl

/-! ## The emission invariant

What `Censor::censor` guarantees about its output: the buffer and the
emitted prefix differ from the canonical input only by the replacement
character, the spy never passes the consume cursor, and every emitted
character was spied exactly once. -/

def Inv (cs : List Char) (repl : Char) (s : EngState) : Prop :=
  BufApprox cs repl s.buf ∧ s.spied ≤ s.consumed ∧ s.consumed ≤ cs.length ∧
    s.emitted.length = s.spied ∧
    (∀ j d, j < s.spied → s.emitted.getD j d = cs.getD j d ∨ s.emitted.getD j d = repl) ∧
    ∀ j d, j < s.spied →
      s.emitted.getD j d = s.buf.getD j d ∨ s.buf.getD j d = repl

theorem Inv.congr {cs : List Char} {repl : Char} {s s' : EngState} (h : Inv cs repl s)
    (hbuf : s'.buf = s.buf) (hsp : s'.spied = s.spied) (hcons : s'.consumed = s.consumed)
    (hem : s'.emitted = s.emitted) : Inv cs repl s' := by
  unfold Inv at h ⊢
  rw [hbuf, hsp, hcons, hem]
  exact h

theorem Inv.safeReset {cs repl s} (h : Inv cs repl s) (c : Char) (syn : Bool) :
    Inv cs repl (safeResetStage s c syn) := by
  rcases safeResetStage_cases s c syn with he | he <;> rw [he]
  · exact h
  · exact h.congr rfl rfl rfl rfl

theorem Inv.counter {cs repl s} (h : Inv cs repl s) (cfg : Config) (c : Char)
    (repl' : Option (List Char)) : Inv cs repl (counterStage cfg s c repl') := by
  obtain ⟨sc, rp, rep, g, he, -⟩ := counterStage_spec cfg s c repl'
  rw [he]
  exact h.congr rfl rfl rfl rfl

theorem Inv.seed {cs repl s} (h : Inv cs repl s) (ctx : Ctx) (sk : Bool)
    (repl' : Option (List Char)) : Inv cs repl (seedStage ctx s sk repl') := by
  rcases seedStage_cases ctx s sk repl' with he | ⟨p, -, -, he⟩ <;> rw [he]
  · exact h
  · exact h.congr rfl rfl rfl rfl

theorem Inv.sep {cs repl s} (h : Inv cs repl s) (sk : Bool) :
    Inv cs repl (sepStage s sk) := by
  obtain ⟨pend, he⟩ := sepStage_spec s sk
  rw [he]
  exact h.congr rfl rfl rfl rfl

theorem Inv.advance {cs repl s} (h : Inv cs repl s) (ctx : Ctx) (cfg : Config)
    (raw_c : Char) (sk : Bool) (repl' : Option (List Char)) (pos : Option Nat) :
    Inv cs repl (advanceStage ctx cfg s raw_c sk repl' pos).s := by
  have hf := advanceStage_frame ctx cfg s raw_c sk repl' pos
  exact h.congr hf.1 hf.2.1 hf.2.2.2.1 hf.2.2.1

theorem Inv.lastpos {cs repl} {a : EngState} (h : Inv cs repl a) (p : Nat) :
    Inv cs repl { a with last_pos := p } :=
  h.congr rfl rfl rfl rfl

theorem Inv.retain {cs : List Char} {cfg : Config} {s : EngState}
    (h : Inv cs cfg.censor_replacement s) (ctx : Ctx) (ds : Option Nat) (se : Nat) :
    Inv cs cfg.censor_replacement (retainStage ctx cfg s ds se) := by
  obtain ⟨t, b, pend, he, hb, hbp⟩ := retainStage_spec ctx cfg s ds se
  rw [he]
  refine ⟨hb cs h.1, h.2.1, h.2.2.1, h.2.2.2.1, h.2.2.2.2.1, ?_⟩
  intro j d hj
  rcases hbp j d with hnew | hnew
  · rw [hnew]
    exact h.2.2.2.2.2 j d hj
  · exact Or.inr hnew

theorem Inv.emit {cs repl s} (h : Inv cs repl s) (se : Nat) :
    Inv cs repl (emitStage s se) := by
  rcases emitStage_cases s se with he | ⟨hlt, u, he, -⟩
  · rw [he]; exact h
  · rw [he]
    refine ⟨h.1, Nat.succ_le_of_lt hlt, h.2.2.1, ?_, ?_, ?_⟩
    · simp only [List.length_append, List.length_cons, List.length_nil]
      rw [h.2.2.2.1]
    · intro j d hj
      rcases Nat.lt_succ_iff_lt_or_eq.mp hj with hj' | hj'
      · rw [getD_concat_lt _ _ _ _ (h.2.2.2.1.symm ▸ hj')]
        exact h.2.2.2.2.1 j d hj'
      · subst hj'
        have hg := getD_concat_eq s.emitted (s.buf.getD s.spied ' ') d
        rw [h.2.2.2.1] at hg
        rw [hg]
        have hsp_lt : s.spied < cs.length := lt_of_lt_of_le hlt h.2.2.1
        rcases h.1.2 s.spied ' ' with hb | hb
        · left; rw [hb]; exact getD_indep cs ' ' d s.spied hsp_lt
        · right; exact hb
    · intro j d hj
      rcases Nat.lt_succ_iff_lt_or_eq.mp hj with hj' | hj'
      · rw [getD_concat_lt _ _ _ _ (h.2.2.2.1.symm ▸ hj')]
        exact h.2.2.2.2.2 j d hj'
      · subst hj'
        have hg := getD_concat_eq s.emitted (s.buf.getD s.spied ' ') d
        rw [h.2.2.2.1] at hg
        rw [hg]
        have hsp_lt : s.spied < s.buf.length := by
          rw [h.1.1]; exact lt_of_lt_of_le hlt h.2.2.1
        left
        exact getD_indep s.buf ' ' d s.spied hsp_lt

/-- The emission invariant is preserved by every step of the matcher loop. -/
theorem Inv.step {cs : List Char} {cfg : Config} {s : EngState}
    (h : Inv cs cfg.censor_replacement s) (ctx : Ctx) (raw_c : Char) (syn : Bool) :
    Inv cs cfg.censor_replacement (stepRaw ctx cfg s raw_c syn) := by
  unfold stepRaw
  dsimp only
  have h3 :=
    (((h.safeReset raw_c syn).counter cfg raw_c (ctx.replacements raw_c)).seed ctx
      (ctx.skippable raw_c) (ctx.replacements raw_c)).sep (ctx.skippable raw_c)
  cases hpos : bufferIndex (safeResetStage s raw_c syn) with
  | none =>
    dsimp only
    exact ((h3.advance ctx cfg raw_c (ctx.skippable raw_c) (ctx.replacements raw_c)
      none).retain ctx _ _).emit _
  | some p =>
    dsimp only
    exact (((h3.advance ctx cfg raw_c (ctx.skippable raw_c) (ctx.replacements raw_c)
      (some p)).lastpos p).retain ctx _ _).emit _

/-! ## The consume cursor is driven only by `processCanonical` -/

theorem safeResetStage_consumed (s : EngState) (c : Char) (syn : Bool) :
    (safeResetStage s c syn).consumed = s.consumed := by
  rcases safeResetStage_cases s c syn with he | he <;> rw [he]

theorem counterStage_consumed (cfg : Config) (s : EngState) (c : Char)
    (r : Option (List Char)) : (counterStage cfg s c r).consumed = s.consumed := by
  obtain ⟨sc, rp, rep, g, he, -⟩ := counterStage_spec cfg s c r
  rw [he]

theorem seedStage_consumed (ctx : Ctx) (s : EngState) (sk : Bool)
    (r : Option (List Char)) : (seedStage ctx s sk r).consumed = s.consumed := by
  rcases seedStage_cases ctx s sk r with he | ⟨p, -, -, he⟩ <;> rw [he]

theorem sepStage_consumed (s : EngState) (sk : Bool) :
    (sepStage s sk).consumed = s.consumed := by
  obtain ⟨pend, he⟩ := sepStage_spec s sk
  rw [he]

theorem advanceStage_consumed (ctx : Ctx) (cfg : Config) (s : EngState) (raw_c : Char)
    (sk : Bool) (r : Option (List Char)) (pos : Option Nat) :
    (advanceStage ctx cfg s raw_c sk r pos).s.consumed = s.consumed :=
  (advanceStage_frame ctx cfg s raw_c sk r pos).2.2.2.1

theorem retainStage_consumed (ctx : Ctx) (cfg : Config) (s : EngState)
    (ds : Option Nat) (se : Nat) : (retainStage ctx cfg s ds se).consumed = s.consumed := by
  obtain ⟨t, b, pend, he, -, -⟩ := retainStage_spec ctx cfg s ds se
  rw [he]

theorem emitStage_consumed (s : EngState) (se : Nat) :
    (emitStage s se).consumed = s.consumed := by
  rcases emitStage_cases s se with he | ⟨-, u, he, -⟩ <;> rw [he]

theorem stepRaw_consumed (ctx : Ctx) (cfg : Config) (s : EngState) (c : Char)
    (syn : Bool) : (stepRaw ctx cfg s c syn).consumed = s.consumed := by
  unfold stepRaw
  dsimp only
  cases hpos : bufferIndex (safeResetStage s c syn) <;>
    simp only [emitStage_consumed, retainStage_consumed, advanceStage_consumed,
      sepStage_consumed, seedStage_consumed, counterStage_consumed,
      safeResetStage_consumed]

/-! ## The final drain -/

theorem commitFold_buf (ctx : Ctx) (cfg : Config) (ps : List Match)
    (tb : Nat × List Char) {cs : List Char}
    (h : BufApprox cs cfg.censor_replacement tb.2) :
    BufApprox cs cfg.censor_replacement
      (ps.foldl (fun (tb : Nat × List Char) p => commitMatch ctx cfg p tb.1 tb.2) tb).2 := by
  induction ps generalizing tb with
  | nil => exact h
  | cons p rest ih =>
    rw [List.foldl_cons]
    exact ih _ (commitMatch_buf ctx cfg p tb.1 h)

theorem commitFold_buf_pointwise (ctx : Ctx) (cfg : Config) (ps : List Match)
    (tb : Nat × List Char) (j : Nat) (d : Char) :
    (ps.foldl (fun (tb : Nat × List Char) p => commitMatch ctx cfg p tb.1 tb.2) tb).2.getD j d =
      tb.2.getD j d ∨
    (ps.foldl (fun (tb : Nat × List Char) p => commitMatch ctx cfg p tb.1 tb.2) tb).2.getD j d =
      cfg.censor_replacement := by
  induction ps generalizing tb with
  | nil => exact Or.inl rfl
  | cons p rest ih =>
    rw [List.foldl_cons]
    rcases ih (commitMatch ctx cfg p tb.1 tb.2) with hr | hr
    · rw [hr]
      exact commitMatch_buf_pointwise ctx cfg p tb.1 tb.2 j d
    · exact Or.inr hr

theorem drainFold_spec (ctx : Ctx) (l : List Char) (s : EngState) :
    (l.foldl (drainStep ctx) s).buf = s.buf ∧
    (l.foldl (drainStep ctx) s).consumed = s.consumed ∧
    (l.foldl (drainStep ctx) s).spied = s.spied + l.length ∧
    (l.foldl (drainStep ctx) s).emitted = s.emitted ++ l := by
  induction l generalizing s with
  | nil => exact ⟨rfl, rfl, rfl, (List.append_nil s.emitted).symm⟩
  | cons c rest ih =>
    rw [List.foldl_cons]
    obtain ⟨h1, h2, h3, h4⟩ := ih (drainStep ctx s c)
    refine ⟨h1, h2, ?_, ?_⟩
    · rw [h3]
      show s.spied + 1 + rest.length = s.spied + (rest.length + 1)
      omega
    · rw [h4]
      show s.emitted ++ [c] ++ rest = s.emitted ++ c :: rest
      rw [List.append_assoc, List.singleton_append]

theorem getD_append_left {α : Type} (l l' : List α) (d : α) (i : Nat)
    (h : i < l.length) : (l ++ l').getD i d = l.getD i d := by
  induction l generalizing i with
  | nil => simp at h
  | cons x xs ih =>
    cases i with
    | zero => rfl
    | succ j =>
      simp only [List.cons_append, List.getD_cons_succ]
      exact ih j (by simpa using h)

theorem getD_append_right {α : Type} (l l' : List α) (d : α) (k : Nat) :
    (l ++ l').getD (l.length + k) d = l'.getD k d := by
  induction l with
  | nil => simp
  | cons x xs ih =>
    simp only [List.cons_append, List.length_cons]
    show (x :: (xs ++ l')).getD (xs.length + 1 + k) d = l'.getD k d
    have : xs.length + 1 + k = (xs.length + k) + 1 := by omega
    rw [this, List.getD_cons_succ]
    exact ih

theorem take_drop_getD (b : List Char) (c sp k : Nat) (d : Char) (h1 : sp + k < c)
    (h2 : c ≤ b.length) : ((b.take c).drop sp).getD k d = b.getD (sp + k) d := by
  induction b generalizing c sp k with
  | nil => simp at h2; omega
  | cons x xs ih =>
    cases c with
    | zero => omega
    | succ c' =>
      rw [List.take_succ_cons]
      cases sp with
      | zero =>
        rw [List.drop_zero]
        cases k with
        | zero => rfl
        | succ k' =>
          simp only [List.getD_cons_succ, Nat.zero_add]
          have := ih c' 0 k' (by omega) (by simpa using h2)
          simpa using this
      | succ sp' =>
        rw [List.drop_succ_cons]
        have hz : sp' + 1 + k = (sp' + k) + 1 := by omega
        rw [hz, List.getD_cons_succ]
        exact ih c' sp' k (by omega) (by simpa using h2)

/-! ## Run-level invariant -/

theorem drainAll_inv (ctx : Ctx) {cs : List Char} {repl : Char} {S1 : EngState}
    (hI : Inv cs repl S1) :
    Inv cs repl (((S1.buf.take S1.consumed).drop S1.spied).foldl (drainStep ctx) S1) ∧
    (((S1.buf.take S1.consumed).drop S1.spied).foldl (drainStep ctx) S1).spied =
      S1.consumed ∧
    (((S1.buf.take S1.consumed).drop S1.spied).foldl (drainStep ctx) S1).consumed =
      S1.consumed := by
  obtain ⟨hbuf, hcons, hsp, hem⟩ :=
    drainFold_spec ctx ((S1.buf.take S1.consumed).drop S1.spied) S1
  have hrl : ((S1.buf.take S1.consumed).drop S1.spied).length = S1.consumed - S1.spied := by
    rw [List.length_drop, List.length_take, hI.1.1, Nat.min_eq_left hI.2.2.1]
  have hspv :
      (((S1.buf.take S1.consumed).drop S1.spied).foldl (drainStep ctx) S1).spied =
        S1.consumed := by
    rw [hsp, hrl]
    have := hI.2.1
    omega
  refine ⟨⟨?_, ?_, ?_, ?_, ?_, ?_⟩, hspv, hcons⟩
  · rw [hbuf]; exact hI.1
  · rw [hspv, hcons]
  · rw [hcons]; exact hI.2.2.1
  · rw [hem, List.length_append, hI.2.2.2.1, hsp]
  · intro j d hj
    rw [hspv] at hj
    rw [hem]
    by_cases hlt : j < S1.spied
    · rw [getD_append_left _ _ _ _ (hI.2.2.2.1.symm ▸ hlt)]
      exact hI.2.2.2.2.1 j d hlt
    · push_neg at hlt
      obtain ⟨k, hk⟩ : ∃ k, j = S1.spied + k := ⟨j - S1.spied, by omega⟩
      subst hk
      have hsplit := getD_append_right S1.emitted
        ((S1.buf.take S1.consumed).drop S1.spied) d k
      rw [hI.2.2.2.1] at hsplit
      rw [hsplit]
      have hblen : S1.consumed ≤ S1.buf.length := by
        rw [hI.1.1]; exact hI.2.2.1
      rw [take_drop_getD S1.buf S1.consumed S1.spied k d hj hblen]
      rcases hI.1.2 (S1.spied + k) d with hb | hb
      · left; exact hb
      · right; exact hb
  · intro j d hj
    rw [hspv] at hj
    rw [hem, hbuf]
    by_cases hlt : j < S1.spied
    · rw [getD_append_left _ _ _ _ (hI.2.2.2.1.symm ▸ hlt)]
      exact hI.2.2.2.2.2 j d hlt
    · push_neg at hlt
      obtain ⟨k, hk⟩ : ∃ k, j = S1.spied + k := ⟨j - S1.spied, by omega⟩
      subst hk
      have hsplit := getD_append_right S1.emitted
        ((S1.buf.take S1.consumed).drop S1.spied) d k
      rw [hI.2.2.2.1] at hsplit
      rw [hsplit]
      have hblen : S1.consumed ≤ S1.buf.length := by
        rw [hI.1.1]; exact hI.2.2.1
      rw [take_drop_getD S1.buf S1.consumed S1.spied k d hj hblen]
      exact Or.inl rfl

theorem finishRun_spec (ctx : Ctx) {cs : List Char} {cfg : Config} {s : EngState}
    (h : Inv cs cfg.censor_replacement s) :
    Inv cs cfg.censor_replacement (finishRun ctx cfg s) ∧
    (finishRun ctx cfg s).spied = s.consumed ∧
    (finishRun ctx cfg s).consumed = s.consumed := by
  unfold finishRun
  dsimp only
  refine drainAll_inv ctx
    ⟨commitFold_buf ctx cfg s.pending_commit (s.typ, s.buf) h.1, h.2.1, h.2.2.1,
      h.2.2.2.1, h.2.2.2.2.1, ?_⟩
  intro j d hj
  rcases commitFold_buf_pointwise ctx cfg s.pending_commit (s.typ, s.buf) j d with hr | hr
  · rw [hr]
    exact h.2.2.2.2.2 j d hj
  · exact Or.inr hr

theorem foldStepRaw_inv (ctx : Ctx) {cs : List Char} {cfg : Config} (l : List Char)
    (s : EngState) (h : Inv cs cfg.censor_replacement s) :
    Inv cs cfg.censor_replacement
      (l.foldl (fun s lc => stepRaw ctx cfg s lc false) s) := by
  induction l generalizing s with
  | nil => exact h
  | cons c rest ih =>
    rw [List.foldl_cons]
    exact ih _ (h.step ctx c false)

theorem foldStepRaw_consumed (ctx : Ctx) (cfg : Config) (l : List Char) (s : EngState) :
    (l.foldl (fun s lc => stepRaw ctx cfg s lc false) s).consumed = s.consumed := by
  induction l generalizing s with
  | nil => rfl
  | cons c rest ih =>
    rw [List.foldl_cons, ih]
    exact stepRaw_consumed ctx cfg s c false

theorem processCanonical_inv (ctx : Ctx) {cs : List Char} {cfg : Config}
    (s : EngState) (c : Char) (i : Nat) (h : Inv cs cfg.censor_replacement s)
    (hle : s.consumed ≤ i + 1) (hlen : i + 1 ≤ cs.length) :
    Inv cs cfg.censor_replacement (processCanonical ctx cfg s (c, i)) := by
  unfold processCanonical
  dsimp only
  refine foldStepRaw_inv ctx _ _ ⟨h.1, ?_, hlen, h.2.2.2.1, h.2.2.2.2⟩
  show s.spied ≤ i + 1
  exact le_trans h.2.1 hle

theorem processCanonical_consumed (ctx : Ctx) (cfg : Config) (s : EngState)
    (ci : Char × Nat) : (processCanonical ctx cfg s ci).consumed = ci.2 + 1 := by
  unfold processCanonical
  dsimp only
  exact foldStepRaw_consumed ctx cfg _ _

theorem foldWithIdx_inv (ctx : Ctx) {cs : List Char} {cfg : Config} :
    ∀ (l : List Char) (i : Nat) (s : EngState), Inv cs cfg.censor_replacement s →
      s.consumed ≤ i → i + l.length ≤ cs.length →
      Inv cs cfg.censor_replacement ((withIdx l i).foldl (processCanonical ctx cfg) s) ∧
      ((withIdx l i).foldl (processCanonical ctx cfg) s).consumed =
        (if l.isEmpty then s.consumed else i + l.length) := by
  intro l
  induction l with
  | nil => intro i s h _ _; exact ⟨h, rfl⟩
  | cons c rest ih =>
    intro i s h hle hlen
    rw [withIdx, List.foldl_cons]
    have h1 : Inv cs cfg.censor_replacement (processCanonical ctx cfg s (c, i)) :=
      processCanonical_inv ctx s c i h (le_trans hle (Nat.le_succ i)) (by
        simp only [List.length_cons] at hlen
        omega)
    have hc1 : (processCanonical ctx cfg s (c, i)).consumed = i + 1 :=
      processCanonical_consumed ctx cfg s (c, i)
    obtain ⟨h2, h3⟩ := ih (i + 1) _ h1 (le_of_eq hc1) (by
      simp only [List.length_cons] at hlen
      omega)
    refine ⟨h2, ?_⟩
    rw [h3]
    cases rest with
    | nil => simp [hc1]
    | cons x xs => simp only [List.isEmpty_cons, List.length_cons, if_neg]; simp; omega

theorem runAll_inv (ctx : Ctx) (cfg : Config) (cs : List Char) :
    Inv cs cfg.censor_replacement (runAll ctx cfg cs) ∧
    (runAll ctx cfg cs).spied = cs.length ∧
    (runAll ctx cfg cs).consumed = cs.length := by
  unfold runAll
  dsimp only
  have h0 : Inv cs cfg.censor_replacement (initState cs) := by
    refine ⟨BufApprox.refl cs cfg.censor_replacement, le_refl 0, Nat.zero_le _, rfl, ?_, ?_⟩
    all_goals
      intro j d hj
      exact absurd hj (Nat.not_lt_zero j)
  obtain ⟨h1, h2⟩ := foldWithIdx_inv ctx cs 0 (initState cs) h0 (le_refl 0)
    (by simp)
  have hcons1 : ((withIdx cs 0).foldl (processCanonical ctx cfg) (initState cs)).consumed
      = cs.length := by
    rw [h2]
    cases cs with
    | nil => rfl
    | cons x xs => simp
  have h3 := h1.step ctx ' ' true
  have hcons2 :
      (stepRaw ctx cfg ((withIdx cs 0).foldl (processCanonical ctx cfg) (initState cs))
        ' ' true).consumed = cs.length := by
    rw [stepRaw_consumed, hcons1]
  obtain ⟨h4, h5, h6⟩ := finishRun_spec ctx h3
  exact ⟨h4, h5.trans hcons2, h6.trans hcons2⟩

/-! ## Claim C1 and C2: shape of the censored output -/

/-- C1: For every input string and every configuration, every character of
the string returned by `censor()` is either the character at the same
position of the canonicalized input (case preserved, since the buffer holds
the pre-lowercasing canonical characters), or the configured censor
replacement character. -/
theorem censor_emits_original_or_replacement (ctx : Ctx) (cfg : Config)
    (cs : List Char) (i : Nat) (d : Char) :
    (censorRun ctx cfg cs).getD i d = cs.getD i d ∨
    (censorRun ctx cfg cs).getD i d = cfg.censor_replacement := by
  obtain ⟨hI, hsp, -⟩ := runAll_inv ctx cfg cs
  by_cases h : i < cs.length
  · exact hI.2.2.2.2.1 i d (by rw [hsp]; exact h)
  · push_neg at h
    left
    show (runAll ctx cfg cs).emitted.getD i d = cs.getD i d
    rw [getD_len_le _ _ _ (by rw [hI.2.2.2.1, hsp]; exact h), getD_len_le cs d i h]

/-- C2: For every input, the string returned by `censor()` has exactly the
same character count as the canonicalized form of the input: censorship
replaces characters one-for-one and never inserts or deletes characters. -/
theorem censor_preserves_char_count (ctx : Ctx) (cfg : Config) (cs : List Char) :
    (censorRun ctx cfg cs).length = cs.length := by
  obtain ⟨hI, hsp, -⟩ := runAll_inv ctx cfg cs
  show (runAll ctx cfg cs).emitted.length = cs.length
  rw [hI.2.2.2.1, hsp]

/-! ## Claim C10: the empty input -/

/-- On the empty input the only processed character is the synthetic
trailing space, which is not seeded (no position was consumed) and matches
nothing; the run only records `last = ' '` and the separator flag. -/
theorem runAll_nil (ctx : Ctx) (cfg : Config) :
    runAll ctx cfg [] =
      { initState [] with last := some ' ', separate := ctx.skippable ' ' } := by
  unfold runAll
  simp only [withIdx, List.foldl_nil]
  unfold stepRaw safeResetStage counterStage seedStage sepStage advanceStage
    retainStage emitStage finishRun bufferIndex spyNextIndex initState
  simp [List.foldl_nil, Option.getD]

/-- C10: On the empty input, `censor()` returns the empty string and
`analyze()` returns the empty `Type` mask, even though `last_pos` retains
its `usize::MAX` sentinel, so the short-input skip of the spam scorer does
not apply. -/
theorem empty_input_behavior (ctx : Ctx) (cfg : Config) :
    censorRun ctx cfg [] = [] ∧ analyzeRun ctx cfg [] = Typ.NONE ∧
    (runAll ctx cfg []).last_pos = USIZE_MAX := by
  refine ⟨?_, ?_, ?_⟩
  · show (runAll ctx cfg []).emitted = []
    rw [runAll_nil]
    rfl
  · show (runAll ctx cfg []).typ ||| scorer cfg (runAll ctx cfg []) = Typ.NONE
    rw [runAll_nil]
    unfold scorer
    simp [initState, satAddUsize, USIZE_MAX, Typ.NONE, Typ.SAFE]
  · rw [runAll_nil]
    rfl

/-! ## Concrete contexts for the closed instances

Each context instantiates the external Unicode primitives and the word
lists exactly the way the real tables behave on the (ASCII) characters of
the concrete inputs it is used with: letters are not
punctuation/separator/other and have no replacement mapping; space and
`'*'`/`'.'`/`'!'`/`'?'` are separators or punctuation; `char::to_lowercase`
on ASCII is `Char.toLower`. -/

/-- An empty word list: no phrase is flagged or safe. -/
def demoCtx : Ctx :=
  { tree := { children := fun _ _ => none, word := fun _ => false,
              typ := fun _ => 0, root := 0 },
    lowercase := fun c => [c.toLower],
    skippable := fun c => c == ' ' || c == '*' || c == '.' || c == '!' || c == '?',
    replacements := fun _ => none,
    isUpper := fun c => isAsciiUppercase c }

/-- A word list with the single safe phrase "ok". -/
def safeCtx : Ctx :=
  { tree := { children := fun n c =>
                if n == 0 && c == 'o' then some 1
                else if n == 1 && c == 'k' then some 2
                else none,
              word := fun n => n == 2,
              typ := fun n => if n == 2 then Typ.SAFE else 0,
              root := 0 },
    lowercase := fun c => [c.toLower],
    skippable := fun c => c == ' ' || c == '*',
    replacements := fun _ => none,
    isUpper := fun c => isAsciiUppercase c }

/-- A word list with two mildly profane phrases "ax" and "ab" sharing their
first letter. -/
def bridgeCtx : Ctx :=
  { tree := { children := fun n c =>
                if n == 0 && c == 'a' then some 1
                else if n == 1 && c == 'x' then some 2
                else if n == 1 && c == 'b' then some 3
                else none,
              word := fun n => n == 2 || n == 3,
              typ := fun n => if n == 2 || n == 3 then Typ.PROFANE &&& Typ.MILD else 0,
              root := 0 },
    lowercase := fun c => [c.toLower],
    skippable := fun c => c == ' ' || c == '*',
    replacements := fun _ => none,
    isUpper := fun c => isAsciiUppercase c }

/-! ## Claim C7: `censor()` must be the first form of processing -/

/-- C7: `censor()` fails its assertion exactly when some input character
was already consumed (`buffer.index()` is `Some`); on a fresh instance it
succeeds, fully consumes the input and returns the censored string; and
after `analyze()` of a nonempty input a subsequent `censor()` fails. -/
theorem censor_panics_iff_consumed (ctx : Ctx) (cfg : Config) (cs : List Char)
    (inst : CensorInst) (hne : cs ≠ []) :
    ((Censor.censorMethod inst).isOk = false ↔ (bufferIndex inst.st).isSome = true) ∧
    Censor.censorMethod (Censor.new ctx cfg cs) =
      Except.ok (censorRun ctx cfg cs,
        { Censor.new ctx cfg cs with st := runAll ctx cfg cs }) ∧
    (Censor.censorMethod (Censor.analyzeMethod (Censor.new ctx cfg cs)).2).isOk = false := by
  refine ⟨?_, rfl, ?_⟩
  · unfold Censor.censorMethod
    by_cases h : (bufferIndex inst.st).isSome = true
    · simp [h, Except.isOk, Except.toBool]
    · simp [h, Except.isOk, Except.toBool]
  · have hc : (runAll ctx cfg cs).consumed = cs.length := (runAll_inv ctx cfg cs).2.2
    have hlen : ¬cs.length = 0 := by
      cases cs with
      | nil => exact absurd rfl hne
      | cons x xs => simp
    unfold Censor.censorMethod Censor.analyzeMethod Censor.new bufferIndex
    dsimp only
    rw [hc]
    simp [hlen, Except.isOk, Except.toBool]

/-- Closed instance of `censor_panics_iff_consumed`: on input "a",
`censor()` after `analyze()` hits the assertion. -/
theorem censor_panics_iff_consumed_witness :
    (Censor.censorMethod
      (Censor.analyzeMethod (Censor.new demoCtx Config.default ['a'])).2).isOk = false :=
  (censor_panics_iff_consumed demoCtx Config.default ['a']
    (Censor.new demoCtx Config.default ['a']) (by simp)).2.2

/-! ## Claim C9: determinism of `analyze()` -/

/-- C9: two fresh `Censor` instances constructed over the same character
sequence with the same configuration yield identical `Type` masks: the
analysis is a function of the input and configuration alone.  (The
embedding represents the match set as an ordered list, so the iteration
order of the Rust hash set, which is itself deterministic for a fixed
seed, is fixed here by construction.) -/
theorem analyze_deterministic (ctx : Ctx) (cfg : Config) (cs : List Char)
    (i1 i2 : CensorInst) (h1 : i1 = Censor.new ctx cfg cs)
    (h2 : i2 = Censor.new ctx cfg cs) :
    (Censor.analyzeMethod i1).1 = (Censor.analyzeMethod i2).1 := by
  subst h1
  subst h2
  rfl

/-- Closed instance of `analyze_deterministic` on input "abc". -/
theorem analyze_deterministic_witness :
    (Censor.analyzeMethod (Censor.new demoCtx Config.default ['a', 'b', 'c'])).1 =
      (Censor.analyzeMethod (Censor.new demoCtx Config.default ['a', 'b', 'c'])).1 :=
  analyze_deterministic demoCtx Config.default ['a', 'b', 'c'] _ _ rfl rfl

/-! ## Claim C3: the sticky `safe` flag is anchored -/

/-- The engine sets `safe` only from a recorded event: a match that reached
a SAFE-terminal node with `start = 0`, `spaces = 0` while false-positive
suppression is enabled (lib.rs lines 695-704). -/
def SafeOK (ctx : Ctx) (cfg : Config) (s : EngState) : Prop :=
  s.safe = true →
    cfg.ignore_false_positives = false ∧
    ∃ m ∈ s.safeEvents, Typ.is (ctx.tree.typ m.node) Typ.SAFE = true ∧
      m.start = 0 ∧ m.spaces = 0

theorem SafeOK.congrS {ctx cfg} {s s' : EngState} (h : SafeOK ctx cfg s)
    (hsafe : s'.safe = s.safe) (hev : s'.safeEvents = s.safeEvents) :
    SafeOK ctx cfg s' := by
  intro hs
  rw [hsafe] at hs
  obtain ⟨h1, m, hm, h3⟩ := h hs
  exact ⟨h1, m, hev ▸ hm, h3⟩

theorem SafeOK.safeResetS {ctx cfg s} (h : SafeOK ctx cfg s) (c : Char) (syn : Bool) :
    SafeOK ctx cfg (safeResetStage s c syn) := by
  rcases safeResetStage_cases s c syn with he | he <;> rw [he]
  · exact h
  · intro hs
    exact absurd hs (by simp)

theorem SafeOK.counterS {ctx cfg s} (h : SafeOK ctx cfg s) (c : Char)
    (r : Option (List Char)) : SafeOK ctx cfg (counterStage cfg s c r) := by
  obtain ⟨sc, rp, rep, g, he, -⟩ := counterStage_spec cfg s c r
  rw [he]
  exact h.congrS rfl rfl

theorem SafeOK.seedS {ctx cfg s} (h : SafeOK ctx cfg s) (sk : Bool)
    (r : Option (List Char)) : SafeOK ctx cfg (seedStage ctx s sk r) := by
  rcases seedStage_cases ctx s sk r with he | ⟨p, -, -, he⟩ <;> rw [he]
  · exact h
  · exact h.congrS rfl rfl

theorem SafeOK.sepS {ctx cfg s} (h : SafeOK ctx cfg s) (sk : Bool) :
    SafeOK ctx cfg (sepStage s sk) := by
  obtain ⟨pend, he⟩ := sepStage_spec s sk
  rw [he]
  exact h.congrS rfl rfl

theorem SafeOK.advanceOne {ctx cfg} {acc : AdvAcc} (h : SafeOK ctx cfg acc.s)
    (raw_c : Char) (sk : Bool) (pos : Option Nat) (c : Char) (m : Match) :
    SafeOK ctx cfg (advanceMatch ctx cfg raw_c sk pos c acc m).s := by
  unfold advanceMatch
  cases hc : ctx.tree.children m.node c with
  | none => exact h.congrS rfl rfl
  | some next =>
    dsimp only
    by_cases hhit : (ctx.tree.word next && Typ.is (ctx.tree.typ next) Typ.SAFE &&
        m.start == 0 &&
        satAdd8 m.spaces (boolNat (c != raw_c && acc.s.separate && c != '\'')) == 0 &&
        !cfg.ignore_false_positives) = true
    · rw [if_pos hhit, if_pos hhit]
      intro _
      simp only [Bool.and_eq_true, Bool.not_eq_true'] at hhit
      obtain ⟨⟨⟨⟨hw, hsafe⟩, hstart⟩, hspaces⟩, hifp⟩ := hhit
      refine ⟨hifp, _, List.mem_cons_self _ _, hsafe, ?_, ?_⟩
      · show m.start = 0
        simpa using hstart
      · show satAdd8 m.spaces (boolNat (c != raw_c && acc.s.separate && c != '\'')) = 0
        simpa using hspaces
    · rw [if_neg hhit, if_neg hhit]
      exact h.congrS rfl rfl

theorem SafeOK.advanceS {ctx cfg s} (h : SafeOK ctx cfg s) (raw_c : Char) (sk : Bool)
    (r : Option (List Char)) (pos : Option Nat) :
    SafeOK ctx cfg (advanceStage ctx cfg s raw_c sk r pos).s := by
  unfold advanceStage
  dsimp only
  have hstart : SafeOK ctx cfg
      (⟨{ s with matches_ := [] }, none, USIZE_MAX⟩ : AdvAcc).s := h.congrS rfl rfl
  generalize hacc : (⟨{ s with matches_ := [] }, none, USIZE_MAX⟩ : AdvAcc) = acc0 at hstart ⊢
  clear hacc
  induction (r.getD [raw_c]) generalizing acc0 with
  | nil => exact hstart
  | cons c rest ih =>
    rw [List.foldl_cons]
    apply ih
    clear ih
    induction s.matches_ generalizing acc0 with
    | nil => exact hstart
    | cons m ms ihm =>
      rw [List.foldl_cons]
      exact ihm _ (hstart.advanceOne raw_c sk pos c m)

theorem SafeOK.retainS {ctx cfg s} (h : SafeOK ctx cfg s) (ds : Option Nat) (se : Nat) :
    SafeOK ctx cfg (retainStage ctx cfg s ds se) := by
  obtain ⟨t, b, pend, he, -, -⟩ := retainStage_spec ctx cfg s ds se
  rw [he]
  exact h.congrS rfl rfl

theorem SafeOK.emitS {ctx cfg s} (h : SafeOK ctx cfg s) (se : Nat) :
    SafeOK ctx cfg (emitStage s se) := by
  rcases emitStage_cases s se with he | ⟨-, u, he, -⟩ <;> rw [he]
  · exact h
  · exact h.congrS rfl rfl

theorem SafeOK.lastposS {ctx cfg} {a : EngState} (h : SafeOK ctx cfg a) (p : Nat) :
    SafeOK ctx cfg { a with last_pos := p } :=
  h.congrS rfl rfl

theorem SafeOK.stepS {ctx cfg s} (h : SafeOK ctx cfg s) (raw_c : Char) (syn : Bool) :
    SafeOK ctx cfg (stepRaw ctx cfg s raw_c syn) := by
  unfold stepRaw
  dsimp only
  have h3 := (((h.safeResetS raw_c syn).counterS raw_c (ctx.replacements raw_c)).seedS
    (ctx.skippable raw_c) (ctx.replacements raw_c)).sepS (ctx.skippable raw_c)
  cases hpos : bufferIndex (safeResetStage s raw_c syn) with
  | none =>
    dsimp only
    exact ((h3.advanceS raw_c (ctx.skippable raw_c) (ctx.replacements raw_c)
      none).retainS _ _).emitS _
  | some p =>
    dsimp only
    exact (((h3.advanceS raw_c (ctx.skippable raw_c) (ctx.replacements raw_c)
      (some p)).lastposS p).retainS _ _).emitS _

theorem drainStep_misc (ctx : Ctx) (s : EngState) (c : Char) :
    (drainStep ctx s c).safe = s.safe ∧ (drainStep ctx s c).safeEvents = s.safeEvents ∧
    (drainStep ctx s c).last_pos = s.last_pos ∧ (drainStep ctx s c).typ = s.typ := by
  unfold drainStep
  exact ⟨rfl, rfl, rfl, rfl⟩

theorem drainFold_misc (ctx : Ctx) (l : List Char) (s : EngState) :
    (l.foldl (drainStep ctx) s).safe = s.safe ∧
    (l.foldl (drainStep ctx) s).safeEvents = s.safeEvents ∧
    (l.foldl (drainStep ctx) s).last_pos = s.last_pos ∧
    (l.foldl (drainStep ctx) s).typ = s.typ := by
  induction l generalizing s with
  | nil => exact ⟨rfl, rfl, rfl, rfl⟩
  | cons c rest ih =>
    rw [List.foldl_cons]
    obtain ⟨h1, h2, h3, h4⟩ := ih (drainStep ctx s c)
    obtain ⟨g1, g2, g3, g4⟩ := drainStep_misc ctx s c
    exact ⟨h1.trans g1, h2.trans g2, h3.trans g3, h4.trans g4⟩

theorem SafeOK.drainFold {ctx cfg} {s : EngState} (h : SafeOK ctx cfg s)
    (l : List Char) : SafeOK ctx cfg (l.foldl (drainStep ctx) s) := by
  have hd := drainFold_misc ctx l s
  exact h.congrS hd.1 hd.2.1

theorem SafeOK.finish {ctx cfg} {s : EngState} (h : SafeOK ctx cfg s) :
    SafeOK ctx cfg (finishRun ctx cfg s) := by
  unfold finishRun
  dsimp only
  refine SafeOK.drainFold ?_ _
  exact h.congrS rfl rfl

theorem SafeOK.processOne {ctx cfg} {s : EngState} (h : SafeOK ctx cfg s)
    (ci : Char × Nat) : SafeOK ctx cfg (processCanonical ctx cfg s ci) := by
  unfold processCanonical
  dsimp only
  have h1 : SafeOK ctx cfg { s with consumed := ci.2 + 1 } := h.congrS rfl rfl
  generalize ({ s with consumed := ci.2 + 1 } : EngState) = s1 at h1 ⊢
  induction (ctx.lowercase ci.1) generalizing s1 with
  | nil => exact h1
  | cons lc rest ih =>
    rw [List.foldl_cons]
    exact ih _ (h1.stepS lc false)

theorem runAll_safeOK (ctx : Ctx) (cfg : Config) (cs : List Char) :
    SafeOK ctx cfg (runAll ctx cfg cs) := by
  unfold runAll
  dsimp only
  refine SafeOK.finish (SafeOK.stepS ?_ ' ' true)
  have h0 : SafeOK ctx cfg (initState cs) := by
    intro hs
    exact absurd hs (by simp [initState])
  generalize initState cs = s0 at h0 ⊢
  induction withIdx cs 0 generalizing s0 with
  | nil => exact h0
  | cons ci rest ih =>
    rw [List.foldl_cons]
    exact ih _ (h0.processOne ci)

/-- The SAFE bit of the scorer output reproduces the sticky `safe` flag:
no spam or self-censoring contribution carries the SAFE bit. -/
theorem scorer_safe_bit (cfg : Config) (s : EngState) :
    Typ.is (scorer cfg s) Typ.SAFE = s.safe := by
  unfold scorer
  dsimp only
  cases hsf : s.safe <;> split_ifs <;>
    first
    | decide
    | simp_all

/-- C3: the sticky `safe` flag (and hence the SAFE bit contributed by the
scorer to the final mask) is set only when a match reaching a
SAFE-terminal trie node has `start = 0` and `spaces = 0` -- a whitelisted
phrase is literally a prefix of the canonicalized input with no inserted
separators -- and false-positive suppression is enabled
(`ignore_false_positives = false`). -/
theorem safe_flag_anchored (ctx : Ctx) (cfg : Config) (cs : List Char) :
    (Typ.is (scorer cfg (runAll ctx cfg cs)) Typ.SAFE = (runAll ctx cfg cs).safe) ∧
    ((runAll ctx cfg cs).safe = true →
      cfg.ignore_false_positives = false ∧
      ∃ m ∈ (runAll ctx cfg cs).safeEvents,
        Typ.is (ctx.tree.typ m.node) Typ.SAFE = true ∧ m.start = 0 ∧ m.spaces = 0) :=
  ⟨scorer_safe_bit cfg _, runAll_safeOK ctx cfg cs⟩

/-- Closed instance of `safe_flag_anchored`: the safe phrase "ok" as the
whole input sets the flag, and the recorded event is anchored at 0. -/
theorem safe_flag_anchored_witness :
    Config.default.ignore_false_positives = false ∧
    ∃ m ∈ (runAll safeCtx Config.default ['o', 'k']).safeEvents,
      Typ.is (safeCtx.tree.typ m.node) Typ.SAFE = true ∧ m.start = 0 ∧ m.spaces = 0 :=
  (safe_flag_anchored safeCtx Config.default ['o', 'k']).2 (by decide)

/-! ## Tracking `last_pos` -/

theorem safeResetStage_last_pos (s : EngState) (c : Char) (syn : Bool) :
    (safeResetStage s c syn).last_pos = s.last_pos := by
  rcases safeResetStage_cases s c syn with he | he <;> rw [he]

theorem counterStage_last_pos (cfg : Config) (s : EngState) (c : Char)
    (r : Option (List Char)) : (counterStage cfg s c r).last_pos = s.last_pos := by
  obtain ⟨sc, rp, rep, g, he, -⟩ := counterStage_spec cfg s c r
  rw [he]

theorem seedStage_last_pos (ctx : Ctx) (s : EngState) (sk : Bool)
    (r : Option (List Char)) : (seedStage ctx s sk r).last_pos = s.last_pos := by
  rcases seedStage_cases ctx s sk r with he | ⟨p, -, -, he⟩ <;> rw [he]

theorem sepStage_last_pos (s : EngState) (sk : Bool) :
    (sepStage s sk).last_pos = s.last_pos := by
  obtain ⟨pend, he⟩ := sepStage_spec s sk
  rw [he]

theorem advanceStage_last_pos (ctx : Ctx) (cfg : Config) (s : EngState) (raw_c : Char)
    (sk : Bool) (r : Option (List Char)) (pos : Option Nat) :
    (advanceStage ctx cfg s raw_c sk r pos).s.last_pos = s.last_pos :=
  (advanceStage_frame ctx cfg s raw_c sk r pos).2.2.2.2.2.2.2.2.2.2.2.1

theorem retainStage_last_pos (ctx : Ctx) (cfg : Config) (s : EngState)
    (ds : Option Nat) (se : Nat) : (retainStage ctx cfg s ds se).last_pos = s.last_pos := by
  obtain ⟨t, b, pend, he, -, -⟩ := retainStage_spec ctx cfg s ds se
  rw [he]

theorem emitStage_last_pos (s : EngState) (se : Nat) :
    (emitStage s se).last_pos = s.last_pos := by
  rcases emitStage_cases s se with he | ⟨-, u, he, -⟩ <;> rw [he]

theorem stepRaw_last_pos (ctx : Ctx) (cfg : Config) (s : EngState) (c : Char)
    (syn : Bool) :
    (stepRaw ctx cfg s c syn).last_pos =
      (if s.consumed = 0 then s.last_pos else s.consumed - 1) := by
  unfold stepRaw
  dsimp only
  by_cases h0 : s.consumed = 0
  · have hpos : bufferIndex (safeResetStage s c syn) = none := by
      unfold bufferIndex
      rw [safeResetStage_consumed]
      simp [h0]
    rw [hpos, if_pos h0]
    simp only [emitStage_last_pos, retainStage_last_pos, advanceStage_last_pos,
      sepStage_last_pos, seedStage_last_pos, counterStage_last_pos,
      safeResetStage_last_pos]
  · have hpos : bufferIndex (safeResetStage s c syn) = some (s.consumed - 1) := by
      unfold bufferIndex
      rw [safeResetStage_consumed]
      simp [h0]
    rw [hpos, if_neg h0]
    simp only [emitStage_last_pos, retainStage_last_pos]

theorem finishRun_last_pos (ctx : Ctx) (cfg : Config) (s : EngState) :
    (finishRun ctx cfg s).last_pos = s.last_pos := by
  unfold finishRun
  dsimp only
  exact (drainFold_misc ctx _ _).2.2.1

/-- After a full pass over a nonempty canonical stream, `last_pos` is the
position of the last canonical character. -/
theorem runAll_last_pos (ctx : Ctx) (cfg : Config) (cs : List Char) (hne : cs ≠ []) :
    (runAll ctx cfg cs).last_pos = cs.length - 1 := by
  unfold runAll
  dsimp only
  rw [finishRun_last_pos, stepRaw_last_pos]
  have hcons : ((withIdx cs 0).foldl (processCanonical ctx cfg) (initState cs)).consumed
      = cs.length := by
    have h0 : Inv cs cfg.censor_replacement (initState cs) := by
      refine ⟨BufApprox.refl cs cfg.censor_replacement, le_refl 0, Nat.zero_le _, rfl, ?_, ?_⟩
      all_goals
        intro j d hj
        exact absurd hj (Nat.not_lt_zero j)
    obtain ⟨-, h2⟩ := foldWithIdx_inv ctx cs 0 (initState cs) h0 (le_refl 0) (by simp)
    rw [h2]
    cases cs with
    | nil => rfl
    | cons x xs => simp
  rw [hcons]
  have : ¬cs.length = 0 := by
    cases cs with
    | nil => exact absurd rfl hne
    | cons x xs => simp
  rw [if_neg this]

/-! ## Claim C4: the spam / self-censor formula -/

/-- The claim's formula for the spam/self-censor contribution, written from
the spec's words (§4.6): `total = min(last_pos + 6, 65535)`,
`spam_signal = max(uppercase, repetitions, gibberish/2, replacements)`,
`percent_spam = 100 * spam_signal / total`, with the threshold table, plus
PROFANE & MILD when self-censoring detection is enabled and
`100 * self_censoring / total > 20`. -/
def specSpamContribution (cfg : Config) (last_pos uppercase repetitions gibberish
    replacements self_censoring : Nat) : Nat :=
  let total := min (last_pos + 6) 65535
  let spam_signal := max (max uppercase repetitions) (max (gibberish / 2) replacements)
  let percent_spam := 100 * spam_signal / total
  let percent_self_censoring := 100 * self_censoring / total
  let spamT :=
    if percent_spam ≥ 70 ∧ last_pos ≥ 20 then Typ.SPAM &&& Typ.SEVERE
    else if percent_spam ≥ 50 ∧ last_pos ≥ 10 then Typ.SPAM &&& Typ.MODERATE
    else if percent_spam ≥ 30 then Typ.SPAM &&& Typ.MILD
    else Typ.NONE
  let selfT :=
    if cfg.ignore_self_censoring = false ∧ percent_self_censoring > 20 then
      Typ.PROFANE &&& Typ.MILD
    else Typ.NONE
  spamT ||| selfT

/-- When the short-input guard does not fire, the scorer computes exactly
the spec's formula (plus the SAFE bit when the `safe` flag is set). -/
theorem scorer_eq_spec (cfg : Config) (s : EngState) (h : 6 ≤ s.last_pos) :
    scorer cfg s =
      (if s.safe then Typ.SAFE else Typ.NONE) |||
        specSpamContribution cfg s.last_pos s.uppercase s.repetitions s.gibberish
          s.replacements s.self_censoring := by
  unfold scorer specSpamContribution
  dsimp only
  rw [if_neg (not_lt.mpr h)]
  have htotal : min (satAddUsize s.last_pos 6) 65535 = min (s.last_pos + 6) 65535 := by
    unfold satAddUsize USIZE_MAX
    omega
  rw [htotal]
  simp only [ge_iff_le, Bool.and_eq_true, decide_eq_true_eq, Bool.not_eq_true']
  rw [Nat.or_assoc]

/-- C4 (amended): whenever the short-input guard does not fire
(`last_pos ≥ 6`), the spam/self-censor contribution to the analysis mask is
computed exactly by the claim's formula; the claim as stated omits the
guard `last_pos < 6` of lib.rs line 526. -/
theorem spam_formula_when_long (ctx : Ctx) (cfg : Config) (cs : List Char)
    (h : 6 ≤ (runAll ctx cfg cs).last_pos) :
    scorer cfg (runAll ctx cfg cs) =
      (if (runAll ctx cfg cs).safe then Typ.SAFE else Typ.NONE) |||
        specSpamContribution cfg (runAll ctx cfg cs).last_pos
          (runAll ctx cfg cs).uppercase (runAll ctx cfg cs).repetitions
          (runAll ctx cfg cs).gibberish (runAll ctx cfg cs).replacements
          (runAll ctx cfg cs).self_censoring :=
  scorer_eq_spec cfg _ h

/-- Closed instance of `spam_formula_when_long` on the seven-character
input "ABCDEFG". -/
theorem spam_formula_when_long_witness :
    6 ≤ (runAll demoCtx Config.default ['A', 'B', 'C', 'D', 'E', 'F', 'G']).last_pos ∧
    scorer Config.default (runAll demoCtx Config.default
        ['A', 'B', 'C', 'D', 'E', 'F', 'G']) =
      (if (runAll demoCtx Config.default ['A', 'B', 'C', 'D', 'E', 'F', 'G']).safe
        then Typ.SAFE else Typ.NONE) |||
        specSpamContribution Config.default
          (runAll demoCtx Config.default ['A', 'B', 'C', 'D', 'E', 'F', 'G']).last_pos
          (runAll demoCtx Config.default ['A', 'B', 'C', 'D', 'E', 'F', 'G']).uppercase
          (runAll demoCtx Config.default ['A', 'B', 'C', 'D', 'E', 'F', 'G']).repetitions
          (runAll demoCtx Config.default ['A', 'B', 'C', 'D', 'E', 'F', 'G']).gibberish
          (runAll demoCtx Config.default ['A', 'B', 'C', 'D', 'E', 'F', 'G']).replacements
          (runAll demoCtx Config.default
            ['A', 'B', 'C', 'D', 'E', 'F', 'G']).self_censoring :=
  ⟨by decide, spam_formula_when_long demoCtx Config.default
    ['A', 'B', 'C', 'D', 'E', 'F', 'G'] (by decide)⟩

/-- C4 counterexample: on the six-character input "ABCDEF" (`last_pos = 5`,
`uppercase = 6`), the claim's formula produces a SPAM bit
(`percent_spam = 600/11 = 54 ≥ 30`), but the analysis mask contains no
SPAM bit at all: the short-input guard of lib.rs line 526, which the claim
omits, returns early. -/
theorem spam_formula_counterexample :
    specSpamContribution Config.default
        (runAll demoCtx Config.default ['A', 'B', 'C', 'D', 'E', 'F']).last_pos
        (runAll demoCtx Config.default ['A', 'B', 'C', 'D', 'E', 'F']).uppercase
        (runAll demoCtx Config.default ['A', 'B', 'C', 'D', 'E', 'F']).repetitions
        (runAll demoCtx Config.default ['A', 'B', 'C', 'D', 'E', 'F']).gibberish
        (runAll demoCtx Config.default ['A', 'B', 'C', 'D', 'E', 'F']).replacements
        (runAll demoCtx Config.default ['A', 'B', 'C', 'D', 'E', 'F']).self_censoring
      &&& Typ.SPAM ≠ 0 ∧
    analyzeRun demoCtx Config.default ['A', 'B', 'C', 'D', 'E', 'F'] &&& Typ.SPAM = 0 := by
  decide

/-! ## Claim C5: short inputs never report SPAM

The trie built in lib.rs lines 26-54 gives SPAM bits to no phrase:
`from_weights` only fills the five lower fields, the safe list gets SAFE
and the false-positive list gets NONE.  Under that hypothesis on the tree,
the accumulated `typ` never acquires a SPAM bit, and for canonical inputs
shorter than 6 characters the scorer contributes at most the SAFE bit. -/

theorem shl_lt_pow {x k : Nat} (n : Nat) (h : x < 2 ^ k) :
    x <<< n < 2 ^ (k + n) := by
  rw [Nat.shiftLeft_eq, pow_add]
  have hp : 0 < 2 ^ n := pow_pos (by norm_num) n
  exact Nat.mul_lt_mul_of_lt_of_le h (le_refl _) hp

theorem testBit_false_of_lt {a k j : Nat} (h : a < 2 ^ k) (hkj : k ≤ j) :
    a.testBit j = false :=
  Nat.testBit_lt_two_pow (lt_of_lt_of_le h (Nat.pow_le_pow_right (by norm_num) hkj))

theorem and_spam_eq_zero_of_lt {a : Nat} (h : a < 2 ^ 15) : a &&& Typ.SPAM = 0 := by
  apply Nat.eq_of_testBit_eq
  intro j
  rw [Nat.zero_testBit, Nat.testBit_and]
  by_cases hj : j < 15
  · have hb : Typ.SPAM.testBit j = false := by interval_cases j <;> decide
    rw [hb, Bool.and_false]
  · push_neg at hj
    rw [testBit_false_of_lt h hj, Bool.false_and]

theorem from_weights_no_spam (w0 w1 w2 w3 w4 : Nat) :
    Typ.from_weights w0 w1 w2 w3 w4 &&& Typ.SPAM = 0 := by
  unfold Typ.from_weights
  dsimp only
  have hsev : ∀ w : Nat,
      (if w ≥ 3 then 0b100 else if w == 2 then 0b010 else if w == 1 then 0b001 else 0) <
        2 ^ 3 := by
    intro w
    split_ifs <;> norm_num
  apply and_spam_eq_zero_of_lt
  have hmono : ∀ a b : Nat, a ≤ b → (2 : Nat) ^ a ≤ 2 ^ b := fun a b hab =>
    Nat.pow_le_pow_right (by norm_num) hab
  refine Nat.or_lt_two_pow (Nat.or_lt_two_pow (Nat.or_lt_two_pow (Nat.or_lt_two_pow
    (lt_of_lt_of_le (hsev w0) (hmono 3 15 (by norm_num)))
    (lt_of_lt_of_le (shl_lt_pow 3 (hsev w1)) (hmono 6 15 (by norm_num))))
    (lt_of_lt_of_le (shl_lt_pow 6 (hsev w2)) (hmono 9 15 (by norm_num))))
    (lt_of_lt_of_le (shl_lt_pow 9 (hsev w3)) (hmono 12 15 (by norm_num))))
    (lt_of_lt_of_le (shl_lt_pow 12 (hsev w4)) (hmono 15 15 (by norm_num)))

theorem or_and_right (a b c : Nat) : (a ||| b) &&& c = (a &&& c) ||| (b &&& c) := by
  rw [Nat.and_comm, Nat.and_or_distrib_left, Nat.and_comm c a, Nat.and_comm c b]

theorem laneScaled_lt (t sp i : Nat) : laneScaled t sp i < 2 ^ (3 * i + 3) := by
  unfold laneScaled
  have hx : ((t >>> (3 * i)) &&& 7) >>> sp ≤ 7 := by
    rw [Nat.shiftRight_eq_div_pow]
    exact le_trans (Nat.div_le_self _ _) Nat.and_le_right
  rw [Nat.shiftLeft_eq]
  have hp : 0 < 2 ^ (3 * i) := pow_pos (by norm_num) _
  calc (((t >>> (3 * i)) &&& 7) >>> sp) * 2 ^ (3 * i) ≤ 7 * 2 ^ (3 * i) :=
        Nat.mul_le_mul_right _ hx
    _ < 8 * 2 ^ (3 * i) := by omega
    _ = 2 ^ (3 * i + 3) := by rw [pow_add]; ring

theorem and_mask_testBit_false {t M : Nat} (h : t &&& M = 0) {j : Nat}
    (hj : M.testBit j = true) : t.testBit j = false := by
  have h' : (t &&& M).testBit j = false := by rw [h]; exact Nat.zero_testBit j
  rw [Nat.testBit_and, hj, Bool.and_true] at h'
  exact h'

theorem sr15_and7_eq_zero {t : Nat} (h : t &&& Typ.SPAM = 0) :
    (t >>> 15) &&& 7 = 0 := by
  apply Nat.eq_of_testBit_eq
  intro i
  rw [Nat.testBit_and, Nat.testBit_shiftRight, Nat.zero_testBit]
  match i with
  | 0 =>
    have hb := and_mask_testBit_false h (show Typ.SPAM.testBit 15 = true by decide)
    simp [hb]
  | 1 =>
    have hb := and_mask_testBit_false h (show Typ.SPAM.testBit 16 = true by decide)
    simp [hb]
  | 2 =>
    have hb := and_mask_testBit_false h (show Typ.SPAM.testBit 17 = true by decide)
    simp [hb]
  | (n + 3) =>
    have h7 : (7 : Nat).testBit (n + 3) = false :=
      @testBit_false_of_lt 7 3 (n + 3) (by norm_num) (by omega)
    simp [h7]

theorem scale_testBit_high (t sp j : Nat) (h15 : 15 ≤ j)
    (hL5 : laneScaled t sp 5 = 0) (hSAFEbit : Typ.SAFE.testBit j = false) :
    (scaleBySpaces t sp).testBit j = false := by
  unfold scaleBySpaces
  rw [hL5]
  simp only [Nat.testBit_lor, Nat.testBit_and, hSAFEbit, Bool.and_false,
    Nat.zero_testBit, Bool.or_false, Bool.false_or]
  rw [testBit_false_of_lt (laneScaled_lt t sp 0) (by omega),
    testBit_false_of_lt (laneScaled_lt t sp 1) (by omega),
    testBit_false_of_lt (laneScaled_lt t sp 2) (by omega),
    testBit_false_of_lt (laneScaled_lt t sp 3) (by omega),
    testBit_false_of_lt (laneScaled_lt t sp 4) (by omega)]
  rfl

theorem scale_and_spam {t : Nat} (sp : Nat) (h : t &&& Typ.SPAM = 0) :
    scaleBySpaces t sp &&& Typ.SPAM = 0 := by
  have h5 : laneScaled t sp 5 = 0 := by
    unfold laneScaled
    rw [show 3 * 5 = 15 from rfl, sr15_and7_eq_zero h]
    simp [Nat.zero_shiftRight, Nat.zero_shiftLeft]
  apply Nat.eq_of_testBit_eq
  intro j
  rw [Nat.zero_testBit, Nat.testBit_and]
  by_cases hj : Typ.SPAM.testBit j = true
  · have hj18 : j < 18 := by
      by_contra hge
      push_neg at hge
      have hf : Typ.SPAM.testBit j = false := testBit_false_of_lt (by decide) hge
      rw [hf] at hj
      exact absurd hj (by simp)
    have hj15 : 15 ≤ j := by
      by_contra hlt
      push_neg at hlt
      interval_cases j <;> exact absurd hj (by decide)
    interval_cases j <;>
      rw [scale_testBit_high t sp _ (by norm_num) h5 (by decide)] <;> rfl
  · simp only [Bool.not_eq_true] at hj
    rw [hj, Bool.and_false]

theorem commitMatch_spam_free {ctx : Ctx} {cfg : Config}
    (hFree : ∀ n, ctx.tree.typ n &&& Typ.SPAM = 0) (m : Match) {t : Nat}
    (b : List Char) (h : t &&& Typ.SPAM = 0) :
    (commitMatch ctx cfg m t b).1 &&& Typ.SPAM = 0 := by
  rw [commitMatch_typ, or_and_right, h, scale_and_spam m.spaces (hFree m.node)]
  rfl

theorem safeResetStage_typ (s : EngState) (c : Char) (syn : Bool) :
    (safeResetStage s c syn).typ = s.typ := by
  rcases safeResetStage_cases s c syn with he | he <;> rw [he]

theorem counterStage_typ (cfg : Config) (s : EngState) (c : Char)
    (r : Option (List Char)) : (counterStage cfg s c r).typ = s.typ := by
  obtain ⟨sc, rp, rep, g, he, -⟩ := counterStage_spec cfg s c r
  rw [he]

theorem seedStage_typ (ctx : Ctx) (s : EngState) (sk : Bool)
    (r : Option (List Char)) : (seedStage ctx s sk r).typ = s.typ := by
  rcases seedStage_cases ctx s sk r with he | ⟨p, -, -, he⟩ <;> rw [he]

theorem sepStage_typ (s : EngState) (sk : Bool) : (sepStage s sk).typ = s.typ := by
  obtain ⟨pend, he⟩ := sepStage_spec s sk
  rw [he]

theorem advanceStage_typ (ctx : Ctx) (cfg : Config) (s : EngState) (raw_c : Char)
    (sk : Bool) (r : Option (List Char)) (pos : Option Nat) :
    (advanceStage ctx cfg s raw_c sk r pos).s.typ = s.typ :=
  (advanceStage_frame ctx cfg s raw_c sk r pos).2.2.2.2.1

theorem emitStage_typ (s : EngState) (se : Nat) : (emitStage s se).typ = s.typ := by
  rcases emitStage_cases s se with he | ⟨-, u, he, -⟩ <;> rw [he]

theorem retainFold_typ_spam (ctx : Ctx) (cfg : Config)
    (hFree : ∀ n, ctx.tree.typ n &&& Typ.SPAM = 0) (ds : Option Nat) (se : Nat)
    (ps : List Match) (acc : Nat × List Char × List Match)
    (h : acc.1 &&& Typ.SPAM = 0) :
    (ps.foldl (retainStep ctx cfg ds se) acc).1 &&& Typ.SPAM = 0 := by
  induction ps generalizing acc with
  | nil => exact h
  | cons p rest ih =>
    rw [List.foldl_cons]
    apply ih
    unfold retainStep
    split
    · exact h
    · split
      · exact commitMatch_spam_free hFree p acc.2.1 h
      · exact h

theorem retainStage_typ_spam {ctx : Ctx} {cfg : Config}
    (hFree : ∀ n, ctx.tree.typ n &&& Typ.SPAM = 0) {s : EngState} (ds : Option Nat)
    (se : Nat) (h : s.typ &&& Typ.SPAM = 0) :
    (retainStage ctx cfg s ds se).typ &&& Typ.SPAM = 0 := by
  unfold retainStage
  dsimp only
  exact retainFold_typ_spam ctx cfg hFree ds se s.pending_commit (s.typ, s.buf, []) h

theorem stepRaw_typ_spam {ctx : Ctx} {cfg : Config}
    (hFree : ∀ n, ctx.tree.typ n &&& Typ.SPAM = 0) {s : EngState} (c : Char)
    (syn : Bool) (h : s.typ &&& Typ.SPAM = 0) :
    (stepRaw ctx cfg s c syn).typ &&& Typ.SPAM = 0 := by
  unfold stepRaw
  dsimp only
  cases hpos : bufferIndex (safeResetStage s c syn) with
  | none =>
    dsimp only
    rw [emitStage_typ]
    refine retainStage_typ_spam hFree _ _ ?_
    rw [advanceStage_typ, sepStage_typ, seedStage_typ, counterStage_typ,
      safeResetStage_typ]
    exact h
  | some p =>
    dsimp only
    rw [emitStage_typ]
    refine retainStage_typ_spam hFree _ _ ?_
    show (advanceStage ctx cfg _ _ _ _ _).s.typ &&& Typ.SPAM = 0
    rw [advanceStage_typ, sepStage_typ, seedStage_typ, counterStage_typ,
      safeResetStage_typ]
    exact h

theorem commitFold_typ_spam (ctx : Ctx) (cfg : Config)
    (hFree : ∀ n, ctx.tree.typ n &&& Typ.SPAM = 0) (ps : List Match)
    (tb : Nat × List Char) (h : tb.1 &&& Typ.SPAM = 0) :
    (ps.foldl (fun (tb : Nat × List Char) p => commitMatch ctx cfg p tb.1 tb.2) tb).1
      &&& Typ.SPAM = 0 := by
  induction ps generalizing tb with
  | nil => exact h
  | cons p rest ih =>
    rw [List.foldl_cons]
    exact ih _ (commitMatch_spam_free hFree p tb.2 h)

theorem finishRun_typ_spam {ctx : Ctx} {cfg : Config}
    (hFree : ∀ n, ctx.tree.typ n &&& Typ.SPAM = 0) {s : EngState}
    (h : s.typ &&& Typ.SPAM = 0) :
    (finishRun ctx cfg s).typ &&& Typ.SPAM = 0 := by
  unfold finishRun
  dsimp only
  rw [(drainFold_misc ctx _ _).2.2.2]
  exact commitFold_typ_spam ctx cfg hFree s.pending_commit (s.typ, s.buf) h

theorem runAll_typ_spam (ctx : Ctx) (cfg : Config) (cs : List Char)
    (hFree : ∀ n, ctx.tree.typ n &&& Typ.SPAM = 0) :
    (runAll ctx cfg cs).typ &&& Typ.SPAM = 0 := by
  unfold runAll
  dsimp only
  refine finishRun_typ_spam hFree (stepRaw_typ_spam hFree ' ' true ?_)
  have h0 : (initState cs).typ &&& Typ.SPAM = 0 := by
    show Typ.NONE &&& Typ.SPAM = 0
    decide
  generalize initState cs = s0 at h0 ⊢
  induction withIdx cs 0 generalizing s0 with
  | nil => exact h0
  | cons ci rest ih =>
    rw [List.foldl_cons]
    apply ih
    unfold processCanonical
    dsimp only
    have h1 : ({ s0 with consumed := ci.2 + 1 } : EngState).typ &&& Typ.SPAM = 0 := h0
    generalize ({ s0 with consumed := ci.2 + 1 } : EngState) = s1 at h1 ⊢
    induction (ctx.lowercase ci.1) generalizing s1 with
    | nil => exact h1
    | cons lc rest2 ih2 =>
      rw [List.foldl_cons]
      exact ih2 _ (stepRaw_typ_spam hFree lc false h1)

/-- C5: for every input whose canonicalized form has fewer than 6
characters (including the empty input), provided no trie terminal carries a
SPAM bit (true of the shipped word lists: `from_weights` never sets SPAM,
the safe list gets SAFE and the false-positive list gets NONE), the mask
returned by `analyze()` contains no SPAM bit, and the scorer contributes
only the SAFE bit (when the `safe` flag is set). -/
theorem short_input_no_spam (ctx : Ctx) (cfg : Config) (cs : List Char)
    (hFree : ∀ n, ctx.tree.typ n &&& Typ.SPAM = 0) (hlen : cs.length < 6) :
    analyzeRun ctx cfg cs &&& Typ.SPAM = 0 ∧
    scorer cfg (runAll ctx cfg cs) =
      (if (runAll ctx cfg cs).safe then Typ.SAFE else Typ.NONE) := by
  have htyp := runAll_typ_spam ctx cfg cs hFree
  have hsc : scorer cfg (runAll ctx cfg cs) =
      (if (runAll ctx cfg cs).safe then Typ.SAFE else Typ.NONE) := by
    rcases eq_or_ne cs [] with hcs | hcs
    · subst hcs
      rw [runAll_nil]
      unfold scorer
      simp [initState, satAddUsize, USIZE_MAX, Typ.NONE, Typ.SAFE]
    · have hlp : (runAll ctx cfg cs).last_pos < 6 := by
        rw [runAll_last_pos ctx cfg cs hcs]
        omega
      unfold scorer
      rw [if_pos hlp]
  refine ⟨?_, hsc⟩
  show ((runAll ctx cfg cs).typ ||| scorer cfg (runAll ctx cfg cs)) &&& Typ.SPAM = 0
  rw [or_and_right, htyp, hsc]
  cases (runAll ctx cfg cs).safe <;> decide

/-- Closed instance of `short_input_no_spam` on the two-character safe
input "ok". -/
theorem short_input_no_spam_witness :
    analyzeRun safeCtx Config.default ['o', 'k'] &&& Typ.SPAM = 0 ∧
    scorer Config.default (runAll safeCtx Config.default ['o', 'k']) =
      (if (runAll safeCtx Config.default ['o', 'k']).safe then Typ.SAFE
        else Typ.NONE) :=
  short_input_no_spam safeCtx Config.default ['o', 'k']
    (by
      intro n
      show (if (n == 2) = true then Typ.SAFE else 0) &&& Typ.SPAM = 0
      split_ifs <;> decide)
    (by decide)

/-! ## Claim C6: the seeded match's `start` -/

/-- The engine state after consuming the whole canonical stream, before the
synthetic trailing space. -/
def runPrefix (ctx : Ctx) (cfg : Config) (cs : List Char) : EngState :=
  (withIdx cs 0).foldl (processCanonical ctx cfg) (initState cs)

/-- C6 counterexample: processing "zzzzza" against a trie whose root has an
`'a'` child, the frontier after the character at position 5 contains the
descendant of the match seeded at that character with `start = 5` (the
current position), and no match with `start = 6`: the fresh match is
inserted with `start = pos` (lib.rs line 629), not `pos + 1` as the claim
states. -/
theorem seed_start_counterexample :
    ((runPrefix bridgeCtx Config.default ['z', 'z', 'z', 'z', 'z', 'a']).matches_.any
      (fun m => m.node == 1 && m.start == 5)) = true ∧
    ((runPrefix bridgeCtx Config.default ['z', 'z', 'z', 'z', 'z', 'a']).matches_.all
      (fun m => !(m.start == 6))) = true := by
  decide

/-- C6 (amended): on every canonical character that is not (skippable and
without a replacement mapping), the engine inserts into the match frontier
a fresh `Match` whose node is the trie root, whose `start` equals the
*current* position (`pos`, lib.rs line 629 -- not `pos + 1`), whose `last`
is the `'\0'` sentinel, whose `space_before` equals the current separator
flag, and whose `spaces` is 0. -/
theorem seed_match_fields (ctx : Ctx) (s : EngState) (sk : Bool)
    (r : Option (List Char)) (p : Nat) (hpos : bufferIndex s = some p)
    (hguard : (sk && r.isNone) = false) :
    seedStage ctx s sk r =
      { s with matches_ :=
          insertCombine s.matches_ (seedMatch ctx.tree.root s.separate p) } ∧
    (seedMatch ctx.tree.root s.separate p).node = ctx.tree.root ∧
    (seedMatch ctx.tree.root s.separate p).start = p ∧
    (seedMatch ctx.tree.root s.separate p).last = Char.ofNat 0 ∧
    (seedMatch ctx.tree.root s.separate p).space_before = s.separate ∧
    (seedMatch ctx.tree.root s.separate p).spaces = 0 := by
  refine ⟨?_, rfl, rfl, rfl, rfl, rfl⟩
  unfold seedStage
  rw [hpos]
  simp [hguard]

/-- A one-character engine state used to instantiate `seed_match_fields`. -/
def seedDemoState : EngState := { initState ['a'] with consumed := 1 }

/-- Closed instance of `seed_match_fields`. -/
theorem seed_match_fields_witness :
    seedStage demoCtx seedDemoState false none =
      { seedDemoState with matches_ :=
          (insertCombine seedDemoState.matches_
            (seedMatch demoCtx.tree.root seedDemoState.separate 0)) } ∧
    (seedMatch demoCtx.tree.root seedDemoState.separate 0).node = demoCtx.tree.root ∧
    (seedMatch demoCtx.tree.root seedDemoState.separate 0).start = 0 ∧
    (seedMatch demoCtx.tree.root seedDemoState.separate 0).last = Char.ofNat 0 ∧
    (seedMatch demoCtx.tree.root seedDemoState.separate 0).space_before =
      seedDemoState.separate ∧
    (seedMatch demoCtx.tree.root seedDemoState.separate 0).spaces = 0 :=
  seed_match_fields demoCtx seedDemoState false none 0 (by decide) (by decide)

end Rustrict

namespace Rustrict

/-! ## Claim C8: idempotence of censoring -/

theorem list_eq_of_getD {l1 l2 : List Char} (hlen : l1.length = l2.length)
    (h : ∀ j, j < l1.length → l1.getD j ' ' = l2.getD j ' ') : l1 = l2 := by
  apply List.ext_getElem hlen
  intro i h1 h2
  have hx := h i h1
  rwa [List.getD_eq_getElem l1 ' ' h1, List.getD_eq_getElem l2 ' ' h2] at hx

theorem censorRun_eq_self_of_buf_eq (ctx : Ctx) (cfg : Config) (cs : List Char)
    (hbuf : (runAll ctx cfg cs).buf = cs) : censorRun ctx cfg cs = cs := by
  obtain ⟨hI, hsp, -⟩ := runAll_inv ctx cfg cs
  show (runAll ctx cfg cs).emitted = cs
  have hlen : (runAll ctx cfg cs).emitted.length = cs.length := by
    rw [hI.2.2.2.1, hsp]
  refine list_eq_of_getD hlen ?_
  intro j hj
  rw [hlen] at hj
  have hj' : j < (runAll ctx cfg cs).spied := by rw [hsp]; exact hj
  rcases hI.2.2.2.2.2 j ' ' hj' with h1 | h1
  · rw [h1, hbuf]
  · rcases hI.2.2.2.2.1 j ' ' hj' with h2 | h2
    · exact h2
    · rw [h2, hbuf] at *
      exact h1.symm

/-- C8 (corrected): as stated the claim is false — even when the censor
replacement character appears in no flagged phrase, censoring need not be a
fixed point, because the replacement character written by the first pass can
be skippable, letting the matcher bridge across it and flag a new phrase on
the second pass (see `censor_not_idempotent_counterexample`). The amended
claim: censoring the censored output returns it unchanged whenever the second
pass performs no buffer rewrite, i.e. whenever the final engine buffer equals
its input. -/
theorem censor_fixed_point_of_no_rewrite (ctx : Ctx) (cfg : Config) (x : List Char)
    (h : (runAll ctx cfg (censorRun ctx cfg x)).buf = censorRun ctx cfg x) :
    censorRun ctx cfg (censorRun ctx cfg x) = censorRun ctx cfg x :=
  censorRun_eq_self_of_buf_eq ctx cfg _ h

/-- Closed instance of `censor_fixed_point_of_no_rewrite`: with an empty word
list the second pass rewrites nothing, so censoring "ok" twice equals
censoring it once. -/
theorem censor_fixed_point_of_no_rewrite_witness :
    (runAll demoCtx Config.default (censorRun demoCtx Config.default ['o', 'k'])).buf =
        censorRun demoCtx Config.default ['o', 'k'] ∧
    censorRun demoCtx Config.default (censorRun demoCtx Config.default ['o', 'k']) =
      censorRun demoCtx Config.default ['o', 'k'] :=
  ⟨by decide,
    censor_fixed_point_of_no_rewrite demoCtx Config.default ['o', 'k'] (by decide)⟩

/-- Counterexample to C8 as stated: the word list is "ax" and "ab" (nodes 0-3),
the replacement character is the default asterisk, and no trie edge is labelled
with the asterisk, so the replacement character is not part of any flagged
phrase. Yet censoring "axb" yields "a*b", and censoring "a*b" again yields
"a**": the first pass's replacement character is skippable, the matcher
bridges "a_b" across it, and the second pass flags "ab". -/
theorem censor_not_idempotent_counterexample :
    ((List.range 4).all (fun n => (bridgeCtx.tree.children n '*').isNone) = true) ∧
    Config.default.censor_replacement = '*' ∧
    censorRun bridgeCtx Config.default ['a', 'x', 'b'] = ['a', '*', 'b'] ∧
    censorRun bridgeCtx Config.default ['a', '*', 'b'] = ['a', '*', '*'] ∧
    censorRun bridgeCtx Config.default (censorRun bridgeCtx Config.default ['a', 'x', 'b']) ≠
      censorRun bridgeCtx Config.default ['a', 'x', 'b'] := by
  refine ⟨by decide, by decide, by decide, by decide, by decide⟩

end Rustrict
